import Mathlib

/-! # Baked-in upgrade registry (x/upgrade/types/upgrade_config.go)

A shallow embedding of `UpgradeConfig` with its operations `SetPlan`, `Clear`
and `GetPlan`; further down, the upgrade state manager of x/upgrade/keeper and
`newSplitAndApply` of x/distribution/client/cli/tx.go.

Modelling conventions.

* A Go `map[K]V` is an association list `List (K × V)` without repeated keys;
  the order of the list stands for the order in which a `range` loop visits
  the entries.  `mapGet`, `mapSet` and `mapDelete` are lookup, `m[k] = v`
  and `delete(m, k)`.
* A slice of plan pointers is a `List Plan`; a `nil` slice and an empty slice
  are both `[]`.  Every call of `SetPlan` receives a plan that is not aliased
  by a record already stored.
* `int64` heights are integers; `maxInt64` is `math.MaxInt64`.
* An index out of range is a runtime failure: `SetPlan` returns `none`.
-/

namespace Upgrade

/-- Modelled from the spec: the declaration of the `Plan` message is not part
of the sources at hand; the data model gives it as
`{name: string, height: int64, info: string}`. -/
structure Plan where
  Name : String
  Height : Int
  Info : String
deriving DecidableEq, Repr

/-- The `key` struct: position of a record inside the bucket of its height. -/
structure key where
  index : Nat
  height : Int
deriving DecidableEq, Repr

/-- The registry: a name index and the buckets of records by height. -/
structure UpgradeConfig where
  keys : List (String × key)
  elements : List (Int × List Plan)
deriving DecidableEq, Repr

/-- The constant `math.MaxInt64`. -/
def maxInt64 : Int := 9223372036854775807

/-- The constant `math.MinInt64`. -/
def minInt64 : Int := -9223372036854775808

/-- The values of the Go type `int64`. -/
def isInt64 (h : Int) : Prop := minInt64 ≤ h ∧ h ≤ maxInt64

instance (h : Int) : Decidable (isInt64 h) := by
  unfold isInt64; infer_instance

/-- Map lookup `v, ok := m[k]`. -/
def mapGet {κ α : Type} [DecidableEq κ] : List (κ × α) → κ → Option α
  | [], _ => none
  | (k', v) :: m, k => if k' = k then some v else mapGet m k

/-- Map store `m[k] = v`: an existing entry keeps its place, a new one is added. -/
def mapSet {κ α : Type} [DecidableEq κ] : List (κ × α) → κ → α → List (κ × α)
  | [], k, v => [(k, v)]
  | (k', v') :: m, k, v => if k' = k then (k, v) :: m else (k', v') :: mapSet m k v

/-- Map removal `delete(m, k)`. -/
def mapDelete {κ α : Type} [DecidableEq κ] : List (κ × α) → κ → List (κ × α)
  | [], _ => []
  | (k', v') :: m, k => if k' = k then mapDelete m k else (k', v') :: mapDelete m k

/-- The bucket `c.elements[height]`; a missing entry reads as the nil slice. -/
def bucket (c : UpgradeConfig) (height : Int) : List Plan :=
  (mapGet c.elements height).getD []

/-- The function `NewUpgradeConfig`: both maps empty. -/
def NewUpgradeConfig : UpgradeConfig := { keys := [], elements := [] }

/-- The tail of `SetPlan`: append the plan to the bucket of its height and
point the name index at the new last slot. -/
def appendPlan (c : UpgradeConfig) (plan : Plan) : UpgradeConfig :=
  let elements := mapSet c.elements plan.Height (bucket c plan.Height ++ [plan])
  { keys := mapSet c.keys plan.Name
      { height := plan.Height, index := ((mapGet elements plan.Height).getD []).length - 1 },
    elements := elements }

/-- The method `SetPlan`.  `none` is the runtime failure of an index out of
range in `c.elements[key.height][key.index]`. -/
def SetPlan (c : UpgradeConfig) (plan : Plan) : Option UpgradeConfig :=
  match mapGet c.keys plan.Name with
  | some k =>
    match (bucket c k.height)[k.index]? with
    | none => none
    | some slot =>
      if slot.Height = plan.Height then
        some { c with elements := mapSet c.elements k.height ((bucket c k.height).set k.index plan) }
      else
        some (appendPlan
          { c with elements := mapSet c.elements k.height ((bucket c k.height).eraseIdx k.index) }
          plan)
  | none => some (appendPlan c plan)

/-- The method `Clear`: drop the name of every record of the bucket from the
name index, then store the nil slice at the height. -/
def Clear (c : UpgradeConfig) (height : Int) : UpgradeConfig :=
  { keys := (bucket c height).foldl (fun ks plan => mapDelete ks plan.Name) c.keys,
    elements := mapSet c.elements height [] }

/-- One iteration of the loop of `GetPlan` over an entry `(vHeight, vPlans)`;
the state is `(plans, recentHeight)`. -/
def getPlanStep (height : Int) (acc : List Plan × Int) (e : Int × List Plan) :
    List Plan × Int :=
  if e.1 > height then
    if e.1 < acc.2 then (e.2, e.1) else acc
  else acc

/-- The method `GetPlan`. -/
def GetPlan (c : UpgradeConfig) (height : Int) : List Plan :=
  match mapGet c.elements height with
  | some plans =>
    if plans.length ≠ 0 then plans
    else (c.elements.foldl (getPlanStep height) (plans, maxInt64)).1
  | none => (c.elements.foldl (getPlanStep height) ([], maxInt64)).1

/-- A run of `SetPlan` calls, in order, stopping at the first failure. -/
def SetPlans (c : UpgradeConfig) : List Plan → Option UpgradeConfig
  | [] => some c
  | p :: ps => (SetPlan c p).bind (fun c' => SetPlans c' ps)

/-- Registries reachable from `NewUpgradeConfig()` by completed `SetPlan` and
`Clear` calls on `int64` heights. -/
inductive Reachable : UpgradeConfig → Prop
  | init : Reachable NewUpgradeConfig
  | setPlan {c c' : UpgradeConfig} (p : Plan) :
      Reachable c → isInt64 p.Height → SetPlan c p = some c' → Reachable c'
  | clear {c : UpgradeConfig} (h : Int) :
      Reachable c → isInt64 h → Reachable (Clear c h)

/-- Number of records named `n` in a bucket. -/
def countName (n : String) (b : List Plan) : Nat :=
  b.countP (fun r => r.Name = n)

/-- The name index is consistent with the buckets: every entry
`keys[n] = (height, index)` points at an existing slot holding a record named
`n`, and every record of every bucket is the one its name's entry points at. -/
def Consistent (c : UpgradeConfig) : Prop :=
  (∀ e ∈ c.keys, ((bucket c e.2.height)[e.2.index]?).map Plan.Name = some e.1) ∧
  (∀ e ∈ c.elements, ∀ i, (hi : i < e.2.length) →
      mapGet c.keys (e.2[i]).Name = some { index := i, height := e.1 })

instance (c : UpgradeConfig) : Decidable (Consistent c) := by
  unfold Consistent; infer_instance

/-- A call on the registry: `SetPlan(plan)` or `Clear(height)`. -/
inductive Call where
  | setPlan (plan : Plan)
  | clear (height : Int)
deriving DecidableEq, Repr

/-- The height a call is about. -/
def Call.height : Call → Int
  | .setPlan plan => plan.Height
  | .clear height => height

/-- A finite sequence of calls, in order, stopping at the first failure. -/
def runCalls (c : UpgradeConfig) : List Call → Option UpgradeConfig
  | [] => some c
  | .setPlan plan :: cs => (SetPlan c plan).bind (fun c' => runCalls c' cs)
  | .clear height :: cs => runCalls (Clear c height) cs

/-- Go maps hold each key once. -/
def WellFormed (c : UpgradeConfig) : Prop :=
  (c.keys.map Prod.fst).Nodup ∧ (c.elements.map Prod.fst).Nodup

/-- Every record sits in the bucket of its own height. -/
def HeightsMatch (c : UpgradeConfig) : Prop :=
  ∀ e ∈ c.elements, ∀ r ∈ e.2, r.Height = e.1

/-- State of a registry after `SetPlan` calls for the plans `done`, whose
names are pairwise distinct: every bucket is the list of the plans of its
height in call order, and no bucket is empty. -/
def Built (c : UpgradeConfig) (done : List Plan) : Prop :=
  (c.elements.map Prod.fst).Nodup ∧
  (∀ n, n ∉ done.map Plan.Name → mapGet c.keys n = none) ∧
  (∀ h, bucket c h = done.filter (fun p => p.Height = h)) ∧
  (∀ e ∈ c.elements, e.2 ≠ [])

/-! ## Concrete call sequences used to evaluate the code -/

/-- Three plans at height 1, then the first one moved to height 2. -/
def shiftedCalls : List Call :=
  [.setPlan ⟨"a", 1, ""⟩, .setPlan ⟨"b", 1, ""⟩, .setPlan ⟨"c", 1, ""⟩, .setPlan ⟨"a", 2, ""⟩]

/-- The registry after `shiftedCalls`: the records `b` and `c` have moved one
slot down in the bucket at height 1, their index entries have not. -/
def shifted : UpgradeConfig :=
  { keys := [("a", ⟨0, 2⟩), ("b", ⟨1, 1⟩), ("c", ⟨2, 1⟩)],
    elements := [(1, [⟨"b", 1, ""⟩, ⟨"c", 1, ""⟩]), (2, [⟨"a", 2, ""⟩])] }

/-- The registry after `shiftedCalls` followed by `SetPlan` of `b` at height 3. -/
def shiftedMoved : UpgradeConfig :=
  { keys := [("a", ⟨0, 2⟩), ("b", ⟨0, 3⟩), ("c", ⟨2, 1⟩)],
    elements := [(1, [⟨"b", 1, ""⟩]), (2, [⟨"a", 2, ""⟩]), (3, [⟨"b", 3, ""⟩])] }

/-- The registry after `shiftedCalls`, without the third plan `c`: the entry
of `b` points one slot past the end of the bucket at height 1. -/
def dangling : UpgradeConfig :=
  { keys := [("a", ⟨0, 2⟩), ("b", ⟨1, 1⟩)],
    elements := [(1, [⟨"b", 1, ""⟩]), (2, [⟨"a", 2, ""⟩])] }

/-- The calls that produce `dangling`. -/
def danglingCalls : List Call :=
  [.setPlan ⟨"a", 1, ""⟩, .setPlan ⟨"b", 1, ""⟩, .setPlan ⟨"a", 2, ""⟩]

/-- The calls that produce `clearedBelow`. -/
def clearedBelowCalls : List Call := [.setPlan ⟨"b", 9, ""⟩, .clear 5]

/-- The registry after `SetPlan` of `b` at height 9 and `Clear(5)`. -/
def clearedBelow : UpgradeConfig :=
  { keys := [("b", ⟨0, 9⟩)], elements := [(9, [⟨"b", 9, ""⟩]), (5, [])] }

/-- The registry after `SetPlan` of `a` at height `math.MaxInt64`. -/
def atMaxHeight : UpgradeConfig :=
  { keys := [("a", ⟨0, maxInt64⟩)], elements := [(maxInt64, [⟨"a", maxInt64, ""⟩])] }

/-! ## Upgrade state manager (x/upgrade/keeper)

The keeper itself is not among the sources at hand, only its tests are; its
operations are modelled from the specification. -/

/-- The constant `EnablePublicDelegationUpgrade` of `upgrade_config.go`. -/
def EnablePublicDelegationUpgrade : String := "EnablePublicDelegationUpgrade"

/-- Modelled from the spec: a record `{name, height}` of the completed-upgrade
log; the keeper's declarations are missing. -/
structure CompletedUpgrade where
  name : String
  height : Int
deriving DecidableEq, Repr

/-- Modelled from the spec: the version table, module name to consensus
version. -/
abbrev VersionMap := List (String × Nat)

/-- Modelled from the spec: the persisted state of the keeper, which is
missing from the sources: the pending plan slot (at most one plan), the
completed-upgrade log in insertion order, and the version table. -/
structure Keeper where
  pending : Option Plan
  completed : List CompletedUpgrade
  versionMap : VersionMap
deriving DecidableEq, Repr

/-- Modelled from the spec: the validation errors of `scheduleUpgrade`. -/
inductive ScheduleError where
  | InvalidPlan
  | AlreadyApplied
  | PastDueDate
deriving DecidableEq, Repr

/-- Modelled from the spec: the process-local registries filled by
`setUpgradeInitializer` and `setUpgradeHandler`, keyed by plan name.  An
initializer yields success or failure; a handler maps the context height, the
plan and the version table to a new version table, or fails. -/
structure Handlers where
  initializers : List (String × Bool)
  handlers : List (String × (Int → Plan → VersionMap → Option VersionMap))

/-- Modelled from the spec: how a call of `applyUpgrade` ends: the upgrade is
applied, the call is a replay of a completed name at the same height (a no-op
error), or block processing halts (missing or failing initializer or handler). -/
inductive ApplyOutcome where
  | applied (k : Keeper)
  | replayed
  | fatal
deriving DecidableEq, Repr

/-- Modelled from the spec: `scheduleUpgrade(ctx, plan)`, missing from the
sources.  It validates `plan.name != ""` and `plan.height > 0` (InvalidPlan),
then fails with AlreadyApplied if the name is in the completed log, then with
PastDueDate if `plan.height <= ctx.height`; an error leaves the state as it
was, success overwrites the pending plan. -/
def scheduleUpgrade (k : Keeper) (ctxHeight : Int) (plan : Plan) :
    Keeper × Option ScheduleError :=
  if plan.Name = "" ∨ plan.Height ≤ 0 then (k, some .InvalidPlan)
  else if plan.Name ∈ k.completed.map CompletedUpgrade.name then (k, some .AlreadyApplied)
  else if plan.Height ≤ ctxHeight then (k, some .PastDueDate)
  else ({ k with pending := some plan }, none)

/-- Modelled from the spec: `applyUpgrade(ctx, plan)`, missing from the
sources.  It runs the initializer and the handler registered for the name,
stores the new version table, appends `{plan.name, ctx.height}` to the
completed log and clears the pending plan. -/
def applyUpgrade (reg : Handlers) (k : Keeper) (ctxHeight : Int) (plan : Plan) :
    ApplyOutcome :=
  if { name := plan.Name, height := ctxHeight } ∈ k.completed then .replayed
  else
    match mapGet reg.initializers plan.Name with
    | none => .fatal
    | some false => .fatal
    | some true =>
      match mapGet reg.handlers plan.Name with
      | none => .fatal
      | some handler =>
        match handler ctxHeight plan k.versionMap with
        | none => .fatal
        | some vm =>
          .applied { pending := none,
                     completed := k.completed ++ [{ name := plan.Name, height := ctxHeight }],
                     versionMap := vm }

/-- One step of the scan of the completed log: keep the entry of greater
height, the later one on a tie. -/
def lastCompletedStep (best : Option CompletedUpgrade) (e : CompletedUpgrade) :
    Option CompletedUpgrade :=
  match best with
  | none => some e
  | some b => if b.height ≤ e.height then some e else some b

/-- Modelled from the spec: `getLastCompletedUpgrade(ctx)`, missing from the
sources: the entry of maximum height of the completed log, the last one
recorded on a tie; on an empty log the default that `TestLastCompletedUpgrade`
expects, the name `EnablePublicDelegationUpgrade` at height 2. -/
def getLastCompletedUpgrade (k : Keeper) : String × Int :=
  match k.completed.foldl lastCompletedStep none with
  | none => (EnablePublicDelegationUpgrade, 2)
  | some r => (r.name, r.height)

/-- The keeper of a fresh test suite: nothing pending, nothing completed. -/
def freshKeeper : Keeper := { pending := none, completed := [], versionMap := [] }

/-- The handler the tests register: it returns the version table as it is. -/
def testHandlers (names : List String) : Handlers :=
  { initializers := names.map (fun n => (n, true)),
    handlers := names.map (fun n => (n, fun _ _ vm => some vm)) }

/-- Modelled from the spec: the keeper states of the plan state machine
`unscheduled → pending → applied`: a plan becomes pending by a successful
`scheduleUpgrade`, and `applyUpgrade` is invoked for the pending plan, in a
context at the height of the plan. -/
inductive Lifecycle (reg : Handlers) : Keeper → Prop
  | fresh : Lifecycle reg freshKeeper
  | scheduled {k k' : Keeper} (ctxHeight : Int) (plan : Plan) :
      Lifecycle reg k → scheduleUpgrade k ctxHeight plan = (k', none) → Lifecycle reg k'
  | applied {k k' : Keeper} (plan : Plan) :
      Lifecycle reg k → k.pending = some plan →
      applyUpgrade reg k plan.Height plan = .applied k' → Lifecycle reg k'

/-- The keeper after the two upgrades of `TestLastCompletedUpgradeOrdering`:
`test-v0.9` applied at height 10, then `test-v0.10` at height 15. -/
def orderingKeeper : Keeper :=
  { pending := none,
    completed := [{ name := "test-v0.9", height := 10 }, { name := "test-v0.10", height := 15 }],
    versionMap := [] }

/-- The keeper of `TestScheduleUpgrade` after `ApplyUpgrade` of `all-good` in a
context at height 10. -/
def appliedKeeper : Keeper :=
  { pending := none, completed := [{ name := "all-good", height := 10 }], versionMap := [] }

end Upgrade

/-! # Splitting a message list into transactions (x/distribution/client/cli/tx.go)

`newSplitAndApply` hands the messages to a callback, whole or in chunks.  The
callback `genOrBroadcastFn` may have effects and its result may depend on
them: it is a function from a state and a chunk to a new state and an
optional error.  The client context and the flag set are passed through
unchanged and are part of the callback here; the callback does not write to
the message slice.  Go `int` is 64 bits wide with wrap-around arithmetic. -/

namespace Distribution

/-- The result of an `int` operation: the mathematical result wrapped into 64
bits, two's complement. -/
def wrapInt (x : Int) : Int := (x + 9223372036854775808) % 18446744073709551616 - 9223372036854775808

/-- How a call of `newSplitAndApply` ends: it returns the callback's error (or
nil), or a slice expression is out of range. -/
inductive Outcome (σ ε : Type) where
  | returned (s : σ) (err : Option ε)
  | panicked (s : σ)
deriving DecidableEq, Repr

/-- The slice expression `msgs[i:j]`; `none` when the bounds are not
`0 <= i <= j <= len(msgs)`. -/
def sliceOf {α : Type} (msgs : List α) (i j : Int) : Option (List α) :=
  if 0 ≤ i ∧ i ≤ j ∧ j ≤ (msgs.length : Int) then
    some ((msgs.drop i.toNat).take (j - i).toNat)
  else none

/-- The loop `for i := 0; i < len(msgs); i += chunkSize` of `newSplitAndApply`,
entered at index `i` with callback state `s`.  The first argument bounds the
number of loop tests; `none` means the bound was too small. -/
def splitLoop {α σ ε : Type} (fn : σ → List α → σ × Option ε) (msgs : List α)
    (chunkSize : Int) : Nat → Int → σ → Option (Outcome σ ε)
  | 0, _, _ => none
  | fuel + 1, i, s =>
    if i < (msgs.length : Int) then
      let sliceEnd := wrapInt (i + chunkSize)
      let sliceEnd := if sliceEnd > (msgs.length : Int) then (msgs.length : Int) else sliceEnd
      match sliceOf msgs i sliceEnd with
      | none => some (.panicked s)
      | some msgChunk =>
        match fn s msgChunk with
        | (s', some err) => some (.returned s' (some err))
        | (s', none) => splitLoop fn msgs chunkSize fuel (wrapInt (i + chunkSize)) s'
    else some (.returned s none)

/-- The function `newSplitAndApply`. -/
def newSplitAndApply {α σ ε : Type} (fn : σ → List α → σ × Option ε) (s : σ)
    (msgs : List α) (chunkSize : Int) (fuel : Nat) : Option (Outcome σ ε) :=
  if chunkSize = 0 then
    some (.returned (fn s msgs).1 (fn s msgs).2)
  else splitLoop fn msgs chunkSize fuel 0 s

/-- Consecutive slices of length `n` of a list, the last one possibly shorter;
the first argument bounds the number of slices. -/
def chunksAux {α : Type} (n : Nat) : Nat → List α → List (List α)
  | 0, _ => []
  | _ + 1, [] => []
  | fuel + 1, a :: l => (a :: l).take n :: chunksAux n fuel ((a :: l).drop n)

/-- The chunks of `msgs` for a chunk size `n`. -/
def chunksOf {α : Type} (n : Nat) (msgs : List α) : List (List α) :=
  chunksAux n msgs.length msgs

/-- Calling the callback on each chunk of a list in order, stopping at the
first error: the final callback state and the error, if any. -/
def runChunks {α σ ε : Type} (fn : σ → List α → σ × Option ε) : σ → List (List α) → σ × Option ε
  | s, [] => (s, none)
  | s, c :: cs =>
    match fn s c with
    | (s', some err) => (s', some err)
    | (s', none) => runChunks fn s' cs

/-- The chunks of a list on which `runChunks` calls the callback. -/
def callsMade {α σ ε : Type} (fn : σ → List α → σ × Option ε) : σ → List (List α) → List (List α)
  | _, [] => []
  | s, c :: cs =>
    match fn s c with
    | (_, some _) => [c]
    | (s', none) => c :: callsMade fn s' cs

/-- A callback that also records, in order, the arguments it is called with. -/
def traced {α σ ε : Type} (fn : σ → List α → σ × Option ε) :
    σ × List (List α) → List α → (σ × List (List α)) × Option ε :=
  fun st c => (((fn st.1 c).1, st.2 ++ [c]), (fn st.1 c).2)

/-- A callback that counts the messages it has been given and never fails. -/
def countingFn : Nat → List Nat → Nat × Option String :=
  fun s c => (s + c.length, none)

/-- A callback that counts the messages it has been given and fails on the
chunk `[3, 4]`. -/
def failingFn : Nat → List Nat → Nat × Option String :=
  fun s c => (s + c.length, if c = [3, 4] then some "rejected" else none)

end Distribution

namespace Upgrade

/-! ## Association lists as maps -/

section MapLemmas

variable {κ α : Type} [DecidableEq κ]

theorem mapGet_mapSet_self (m : List (κ × α)) (k : κ) (v : α) :
    mapGet (mapSet m k v) k = some v := by
  induction m with
  | nil => simp [mapSet, mapGet]
  | cons e m ih =>
    obtain ⟨k', v'⟩ := e
    by_cases hk : k' = k
    · simp [mapSet, mapGet, hk]
    · simp [mapSet, mapGet, hk, ih]

theorem mapGet_mapSet_ne (m : List (κ × α)) (k k' : κ) (v : α) (hne : k' ≠ k) :
    mapGet (mapSet m k v) k' = mapGet m k' := by
  induction m with
  | nil =>
    have : ¬ k = k' := fun h => hne h.symm
    simp [mapSet, mapGet, this]
  | cons e m ih =>
    obtain ⟨k1, v1⟩ := e
    by_cases hk : k1 = k
    · subst hk
      have : ¬ k1 = k' := fun h => hne h.symm
      simp [mapSet, mapGet, this]
    · by_cases hk' : k1 = k'
      · subst hk'
        simp [mapSet, mapGet, hk]
      · simp [mapSet, mapGet, hk, hk', ih]

theorem mem_of_mapGet (m : List (κ × α)) (k : κ) (v : α) (h : mapGet m k = some v) :
    (k, v) ∈ m := by
  induction m with
  | nil => simp [mapGet] at h
  | cons e m ih =>
    obtain ⟨k1, v1⟩ := e
    by_cases hk : k1 = k
    · simp [mapGet, hk] at h
      simp [hk, h]
    · simp [mapGet, hk] at h
      exact List.mem_cons_of_mem _ (ih h)

theorem mapGet_of_mem (m : List (κ × α)) (k : κ) (v : α)
    (hnd : (m.map Prod.fst).Nodup) (h : (k, v) ∈ m) : mapGet m k = some v := by
  induction m with
  | nil => simp at h
  | cons e m ih =>
    obtain ⟨k1, v1⟩ := e
    simp only [List.map_cons, List.nodup_cons] at hnd
    rcases List.mem_cons.mp h with heq | hmem
    · simp only [Prod.mk.injEq] at heq
      simp [mapGet, heq.1, heq.2]
    · have hne : k1 ≠ k := by
        intro hk
        apply hnd.1
        rw [hk]
        exact List.mem_map_of_mem Prod.fst hmem
      simp [mapGet, hne, ih hnd.2 hmem]

theorem mapGet_none_of_not_mem (m : List (κ × α)) (k : κ)
    (h : k ∉ m.map Prod.fst) : mapGet m k = none := by
  induction m with
  | nil => rfl
  | cons e m ih =>
    obtain ⟨k1, v1⟩ := e
    simp only [List.map_cons, List.mem_cons, not_or] at h
    have hne : ¬ k1 = k := fun hk => h.1 hk.symm
    simp [mapGet, hne, ih h.2]

theorem mem_mapSet (m : List (κ × α)) (k : κ) (v : α) (e : κ × α)
    (h : e ∈ mapSet m k v) : e ∈ m ∨ e = (k, v) := by
  induction m with
  | nil => simpa [mapSet] using h
  | cons e1 m ih =>
    obtain ⟨k1, v1⟩ := e1
    by_cases hk : k1 = k
    · simp only [mapSet, hk, if_true, List.mem_cons] at h
      rcases h with h | h
      · exact Or.inr h
      · exact Or.inl (List.mem_cons_of_mem _ h)
    · simp only [mapSet, hk, if_false, List.mem_cons] at h
      rcases h with h | h
      · exact Or.inl (by simp [h])
      · rcases ih h with h1 | h1
        · exact Or.inl (List.mem_cons_of_mem _ h1)
        · exact Or.inr h1

theorem mapSet_keys (m : List (κ × α)) (k : κ) (v : α) :
    (mapSet m k v).map Prod.fst =
      if k ∈ m.map Prod.fst then m.map Prod.fst else m.map Prod.fst ++ [k] := by
  induction m with
  | nil => simp [mapSet]
  | cons e1 m ih =>
    obtain ⟨k1, v1⟩ := e1
    by_cases hk : k1 = k
    · simp [mapSet, hk]
    · have hk' : ¬ k = k1 := fun h => hk h.symm
      simp only [mapSet, hk, if_false, List.map_cons, ih, List.mem_cons, hk', false_or]
      split <;> simp

theorem mapSet_nodup (m : List (κ × α)) (k : κ) (v : α)
    (hnd : (m.map Prod.fst).Nodup) : ((mapSet m k v).map Prod.fst).Nodup := by
  rw [mapSet_keys]
  split
  · exact hnd
  · rename_i hk
    rw [List.nodup_append]
    refine ⟨hnd, List.nodup_singleton k, ?_⟩
    intro a ha hb
    simp only [List.mem_singleton] at hb
    exact hk (hb ▸ ha)

theorem mem_mapSet_nodup (m : List (κ × α)) (k : κ) (v : α) (e : κ × α)
    (hnd : (m.map Prod.fst).Nodup) (h : e ∈ mapSet m k v) :
    (e ∈ m ∧ e.1 ≠ k) ∨ e = (k, v) := by
  by_cases hk : e.1 = k
  · right
    have h1 := mapGet_of_mem (mapSet m k v) e.1 e.2 (mapSet_nodup m k v hnd) h
    rw [hk, mapGet_mapSet_self] at h1
    have h2 : e.2 = v := (Option.some.inj h1).symm
    exact Prod.ext hk h2
  · rcases mem_mapSet m k v e h with h1 | h1
    · exact Or.inl ⟨h1, hk⟩
    · exact absurd (by rw [h1]) hk

theorem mem_mapSet_of_mem_ne (m : List (κ × α)) (k : κ) (v : α) (e : κ × α)
    (h : e ∈ m) (hne : e.1 ≠ k) : e ∈ mapSet m k v := by
  induction m with
  | nil => simp at h
  | cons e1 m ih =>
    obtain ⟨k1, v1⟩ := e1
    by_cases hk : k1 = k
    · simp only [mapSet, hk, if_true, List.mem_cons]
      rcases List.mem_cons.mp h with h1 | h1
      · exact absurd (by rw [h1]; exact hk) hne
      · exact Or.inr h1
    · simp only [mapSet, hk, if_false, List.mem_cons]
      rcases List.mem_cons.mp h with h1 | h1
      · exact Or.inl h1
      · exact Or.inr (ih h1)

theorem mem_mapSet_self (m : List (κ × α)) (k : κ) (v : α) : (k, v) ∈ mapSet m k v :=
  mem_of_mapGet _ _ _ (mapGet_mapSet_self m k v)

theorem mapDelete_keys_sublist (m : List (κ × α)) (k : κ) :
    ((mapDelete m k).map Prod.fst).Sublist (m.map Prod.fst) := by
  induction m with
  | nil => simp [mapDelete]
  | cons e1 m ih =>
    obtain ⟨k1, v1⟩ := e1
    by_cases hk : k1 = k
    · simp only [mapDelete, hk, if_true, List.map_cons]
      exact List.Sublist.cons _ ih
    · simp only [mapDelete, hk, if_false, List.map_cons]
      exact List.Sublist.cons₂ _ ih

theorem mapGet_mapDelete (m : List (κ × α)) (k k' : κ) :
    mapGet (mapDelete m k) k' = if k' = k then none else mapGet m k' := by
  induction m with
  | nil => simp [mapDelete, mapGet]
  | cons e1 m ih =>
    obtain ⟨k1, v1⟩ := e1
    by_cases hk : k1 = k
    · by_cases hk' : k' = k
      · subst hk'
        simp [mapDelete, hk, ih]
      · have : ¬ k = k' := fun h => hk' h.symm
        simp [mapDelete, mapGet, hk, ih, hk', this]
    · by_cases hk' : k' = k
      · subst hk'
        simp [mapDelete, mapGet, hk, ih]
      · simp [mapDelete, mapGet, hk, ih, hk']

end MapLemmas

/-! ## Invariants of the reachable registries -/

theorem mem_bucket_height (c : UpgradeConfig) (h : Int) (r : Plan)
    (hm : HeightsMatch c) (hr : r ∈ bucket c h) : r.Height = h := by
  unfold bucket at hr
  cases hg : mapGet c.elements h with
  | none => simp [hg] at hr
  | some b =>
    rw [hg] at hr
    exact hm (h, b) (mem_of_mapGet _ _ _ hg) r hr

theorem bucket_of_mem (c : UpgradeConfig) (e : Int × List Plan)
    (hwf : (c.elements.map Prod.fst).Nodup) (he : e ∈ c.elements) : bucket c e.1 = e.2 := by
  unfold bucket
  rw [mapGet_of_mem c.elements e.1 e.2 hwf he]
  rfl

theorem appendPlan_heightsMatch (c : UpgradeConfig) (p : Plan) (hm : HeightsMatch c) :
    HeightsMatch (appendPlan c p) := by
  intro e he r hr
  simp only [appendPlan] at he
  rcases mem_mapSet _ _ _ _ he with h1 | h1
  · exact hm e h1 r hr
  · subst h1
    simp only [List.mem_append, List.mem_singleton] at hr
    rcases hr with hr | hr
    · exact mem_bucket_height c p.Height r hm hr
    · rw [hr]

theorem setBucket_heightsMatch (c : UpgradeConfig) (h : Int) (b : List Plan)
    (hm : HeightsMatch c) (hb : ∀ r ∈ b, r.Height = h) :
    HeightsMatch { c with elements := mapSet c.elements h b } := by
  intro e he r hr
  rcases mem_mapSet _ _ _ _ he with h1 | h1
  · exact hm e h1 r hr
  · subst h1
    exact hb r hr

theorem SetPlan_heightsMatch (c c' : UpgradeConfig) (p : Plan) (hm : HeightsMatch c)
    (hs : SetPlan c p = some c') : HeightsMatch c' := by
  unfold SetPlan at hs
  cases hk : mapGet c.keys p.Name with
  | none =>
    simp only [hk, Option.some.injEq] at hs
    subst hs
    exact appendPlan_heightsMatch c p hm
  | some k =>
    simp only [hk] at hs
    cases hslot : (bucket c k.height)[k.index]? with
    | none => simp [hslot] at hs
    | some slot =>
      simp only [hslot] at hs
      have hslotmem : slot ∈ bucket c k.height := List.getElem?_mem hslot
      have hsh : slot.Height = k.height := mem_bucket_height c k.height slot hm hslotmem
      by_cases heq : slot.Height = p.Height
      · simp only [heq, if_true, Option.some.injEq] at hs
        subst hs
        apply setBucket_heightsMatch c k.height _ hm
        intro r hr
        rcases List.mem_or_eq_of_mem_set hr with h1 | h1
        · exact mem_bucket_height c k.height r hm h1
        · rw [h1, ← heq, hsh]
      · simp only [heq, if_false, Option.some.injEq] at hs
        subst hs
        apply appendPlan_heightsMatch
        apply setBucket_heightsMatch c k.height _ hm
        intro r hr
        exact mem_bucket_height c k.height r hm (List.mem_of_mem_eraseIdx hr)

theorem Clear_heightsMatch (c : UpgradeConfig) (h : Int) (hm : HeightsMatch c) :
    HeightsMatch (Clear c h) := by
  intro e he r hr
  simp only [Clear] at he
  rcases mem_mapSet _ _ _ _ he with h1 | h1
  · exact hm e h1 r hr
  · subst h1
    simp at hr

theorem Reachable.heightsMatch {c : UpgradeConfig} (hr : Reachable c) : HeightsMatch c := by
  induction hr with
  | init => intro e he; simp [NewUpgradeConfig] at he
  | setPlan p _ _ hs ih => exact SetPlan_heightsMatch _ _ p ih hs
  | clear h _ _ ih => exact Clear_heightsMatch _ h ih

theorem foldl_mapDelete_nodup (b : List Plan) (ks : List (String × key))
    (hnd : (ks.map Prod.fst).Nodup) :
    ((b.foldl (fun ks plan => mapDelete ks plan.Name) ks).map Prod.fst).Nodup := by
  induction b generalizing ks with
  | nil => exact hnd
  | cons r b ih =>
    simp only [List.foldl_cons]
    exact ih _ ((mapDelete_keys_sublist ks r.Name).nodup hnd)

theorem appendPlan_wellFormed (c : UpgradeConfig) (p : Plan) (hw : WellFormed c) :
    WellFormed (appendPlan c p) :=
  ⟨mapSet_nodup _ _ _ hw.1, mapSet_nodup _ _ _ hw.2⟩

theorem SetPlan_wellFormed (c c' : UpgradeConfig) (p : Plan) (hw : WellFormed c)
    (hs : SetPlan c p = some c') : WellFormed c' := by
  unfold SetPlan at hs
  cases hk : mapGet c.keys p.Name with
  | none =>
    simp only [hk, Option.some.injEq] at hs
    subst hs
    exact appendPlan_wellFormed c p hw
  | some k =>
    simp only [hk] at hs
    cases hslot : (bucket c k.height)[k.index]? with
    | none => simp [hslot] at hs
    | some slot =>
      simp only [hslot] at hs
      by_cases heq : slot.Height = p.Height
      · simp only [heq, if_true, Option.some.injEq] at hs
        subst hs
        exact ⟨hw.1, mapSet_nodup _ _ _ hw.2⟩
      · simp only [heq, if_false, Option.some.injEq] at hs
        subst hs
        apply appendPlan_wellFormed
        exact ⟨hw.1, mapSet_nodup _ _ _ hw.2⟩

theorem Reachable.wellFormed {c : UpgradeConfig} (hr : Reachable c) : WellFormed c := by
  induction hr with
  | init => simp [WellFormed, NewUpgradeConfig]
  | setPlan p _ _ hs ih => exact SetPlan_wellFormed _ _ p ih hs
  | clear h _ _ ih =>
    exact ⟨foldl_mapDelete_nodup _ _ ih.1, mapSet_nodup _ _ _ ih.2⟩

theorem Reachable.runCalls {c : UpgradeConfig} (hr : Reachable c) (cs : List Call)
    (c' : UpgradeConfig) (hcs : ∀ x ∈ cs, isInt64 x.height)
    (hrun : Upgrade.runCalls c cs = some c') : Reachable c' := by
  induction cs generalizing c with
  | nil =>
    simp only [Upgrade.runCalls, Option.some.injEq] at hrun
    exact hrun ▸ hr
  | cons x cs ih =>
    have hx : isInt64 x.height := hcs x (List.mem_cons_self _ _)
    have hrest : ∀ y ∈ cs, isInt64 y.height := fun y hy => hcs y (List.mem_cons_of_mem _ hy)
    cases x with
    | setPlan plan =>
      simp only [Upgrade.runCalls] at hrun
      cases hs : SetPlan c plan with
      | none => simp [hs] at hrun
      | some c1 =>
        simp only [hs, Option.some_bind] at hrun
        exact ih (Reachable.setPlan plan hr hx hs) hrest hrun
    | clear height =>
      simp only [Upgrade.runCalls] at hrun
      exact ih (Reachable.clear height hr hx) hrest hrun

/-- A registry produced by a run of calls from `NewUpgradeConfig()` is reachable. -/
theorem reachable_of_runCalls (cs : List Call) (c : UpgradeConfig)
    (hcs : ∀ x ∈ cs, isInt64 x.height) (hrun : runCalls NewUpgradeConfig cs = some c) :
    Reachable c :=
  Reachable.init.runCalls cs c hcs hrun

/-! ## The search loop of `GetPlan` -/

theorem getPlan_loop_spec (height : Int) (els : List (Int × List Plan))
    (p0 : List Plan) (r0 : Int) :
    (els.foldl (getPlanStep height) (p0, r0) = (p0, r0) ∧
        ∀ e ∈ els, ¬ (height < e.1 ∧ e.1 < r0)) ∨
    (∃ e ∈ els, els.foldl (getPlanStep height) (p0, r0) = (e.2, e.1) ∧
        height < e.1 ∧ e.1 < r0 ∧ ∀ e' ∈ els, height < e'.1 → e.1 ≤ e'.1) := by
  induction els generalizing p0 r0 with
  | nil => left; simp
  | cons e els ih =>
    simp only [List.foldl_cons]
    by_cases hc : height < e.1 ∧ e.1 < r0
    · have hstep : getPlanStep height (p0, r0) e = (e.2, e.1) := by
        simp [getPlanStep, hc.1, hc.2]
      rw [hstep]
      right
      rcases ih e.2 e.1 with ⟨hres, hall⟩ | ⟨e2, he2, hres, hlt, hlt2, hmin⟩
      · refine ⟨e, List.mem_cons_self _ _, hres, hc.1, hc.2, ?_⟩
        intro e' he' hgt
        rcases List.mem_cons.mp he' with h1 | h1
        · rw [h1]
        · have := hall e' h1
          by_contra hcon
          exact this ⟨hgt, by omega⟩
      · refine ⟨e2, List.mem_cons_of_mem _ he2, hres, hlt, by omega, ?_⟩
        intro e' he' hgt
        rcases List.mem_cons.mp he' with h1 | h1
        · rw [h1]; omega
        · exact hmin e' h1 hgt
    · have hstep : getPlanStep height (p0, r0) e = (p0, r0) := by
        simp only [getPlanStep]
        by_cases h1 : e.1 > height
        · have h2 : ¬ e.1 < r0 := fun h2 => hc ⟨h1, h2⟩
          simp [h1, h2]
        · simp [h1]
      rw [hstep]
      rcases ih p0 r0 with ⟨hres, hall⟩ | ⟨e2, he2, hres, hlt, hlt2, hmin⟩
      · left
        refine ⟨hres, ?_⟩
        intro e' he'
        rcases List.mem_cons.mp he' with h1 | h1
        · rw [h1]; exact hc
        · exact hall e' h1
      · right
        refine ⟨e2, List.mem_cons_of_mem _ he2, hres, hlt, hlt2, ?_⟩
        intro e' he' hgt
        rcases List.mem_cons.mp he' with h1 | h1
        · rw [h1] at hgt ⊢
          have : ¬ e.1 < r0 := fun h2 => hc ⟨hgt, h2⟩
          omega
        · exact hmin e' h1 hgt

/-- What `GetPlan` returns when the bucket at the queried height is missing or
empty: the result of the search loop started from the empty list. -/
theorem GetPlan_of_bucket_nil (c : UpgradeConfig) (h : Int) (hb : bucket c h = []) :
    GetPlan c h = (c.elements.foldl (getPlanStep h) ([], maxInt64)).1 := by
  unfold GetPlan
  unfold bucket at hb
  cases hg : mapGet c.elements h with
  | none => rfl
  | some b =>
    rw [hg] at hb
    simp only [Option.getD_some] at hb
    subst hb
    simp

theorem GetPlan_of_bucket_ne_nil (c : UpgradeConfig) (h : Int) (hb : bucket c h ≠ []) :
    GetPlan c h = bucket c h := by
  unfold GetPlan
  unfold bucket at hb ⊢
  cases hg : mapGet c.elements h with
  | none => simp [hg] at hb
  | some b =>
    rw [hg] at hb
    simp only [Option.getD_some] at hb ⊢
    have : b.length ≠ 0 := fun h0 => hb (List.length_eq_zero.mp h0)
    simp [this]

/-- The result of `GetPlan` is empty or is a stored bucket at a height that is
not below the queried one. -/
theorem GetPlan_cases (c : UpgradeConfig) (h : Int) :
    GetPlan c h = [] ∨ ∃ e ∈ c.elements, GetPlan c h = e.2 ∧ h ≤ e.1 := by
  by_cases hb : bucket c h = []
  · rw [GetPlan_of_bucket_nil c h hb]
    rcases getPlan_loop_spec h c.elements [] maxInt64 with
      ⟨hres, _⟩ | ⟨e, he, hres, hlt, _, _⟩
    · left; rw [hres]
    · right; exact ⟨e, he, by rw [hres], le_of_lt hlt⟩
  · right
    rw [GetPlan_of_bucket_ne_nil c h hb]
    unfold bucket at hb ⊢
    cases hg : mapGet c.elements h with
    | none => simp [hg] at hb
    | some b => exact ⟨(h, b), mem_of_mapGet _ _ _ hg, rfl, le_refl h⟩

/-! ## Independence of the order in which the map is visited -/

theorem mapGet_perm {κ α : Type} [DecidableEq κ] (m m' : List (κ × α)) (k : κ)
    (hp : m.Perm m') (hnd : (m.map Prod.fst).Nodup) : mapGet m k = mapGet m' k := by
  have hnd' : (m'.map Prod.fst).Nodup := (hp.map Prod.fst).nodup_iff.mp hnd
  cases hg : mapGet m k with
  | some v =>
    exact (mapGet_of_mem m' k v hnd' (hp.subset (mem_of_mapGet _ _ _ hg))).symm
  | none =>
    cases hg' : mapGet m' k with
    | none => rfl
    | some v =>
      have := mapGet_of_mem m k v hnd (hp.symm.subset (mem_of_mapGet _ _ _ hg'))
      rw [hg] at this
      exact this

theorem getPlan_loop_perm (height : Int) (els els' : List (Int × List Plan))
    (hp : els.Perm els') (hnd : (els.map Prod.fst).Nodup) (p0 : List Plan) (r0 : Int) :
    els.foldl (getPlanStep height) (p0, r0) = els'.foldl (getPlanStep height) (p0, r0) := by
  rcases getPlan_loop_spec height els p0 r0 with
    ⟨hres, hall⟩ | ⟨e, he, hres, hlt, hlt2, hmin⟩ <;>
  rcases getPlan_loop_spec height els' p0 r0 with
    ⟨hres', hall'⟩ | ⟨e', he', hres', hlt', hlt2', hmin'⟩
  · rw [hres, hres']
  · exact absurd ⟨hlt', hlt2'⟩ (hall e' (hp.symm.subset he'))
  · exact absurd ⟨hlt, hlt2⟩ (hall' e (hp.subset he))
  · have h1 : e.1 ≤ e'.1 := hmin e' (hp.symm.subset he') hlt'
    have h2 : e'.1 ≤ e.1 := hmin' e (hp.subset he) hlt
    have hk : e'.1 = e.1 := le_antisymm h2 h1
    have hv1 := mapGet_of_mem els e.1 e.2 hnd he
    have hv2 := mapGet_of_mem els e'.1 e'.2 hnd (hp.symm.subset he')
    rw [hk, hv1] at hv2
    have hv : e.2 = e'.2 := Option.some.inj hv2
    rw [hres, hres', hk, hv]

/-- The result of `GetPlan` does not depend on the order in which the `range`
loop visits the buckets. -/
theorem GetPlan_perm (c c' : UpgradeConfig) (h : Int)
    (hp : c.elements.Perm c'.elements) (hnd : (c.elements.map Prod.fst).Nodup) :
    GetPlan c h = GetPlan c' h := by
  unfold GetPlan
  rw [← mapGet_perm c.elements c'.elements h hp hnd]
  cases mapGet c.elements h with
  | none => simp only; rw [getPlan_loop_perm h _ _ hp hnd]
  | some b =>
    simp only
    split
    · rfl
    · rw [getPlan_loop_perm h _ _ hp hnd]

/-! ## Registries built by `SetPlan` calls with distinct names -/

theorem Built.step (c : UpgradeConfig) (done : List Plan) (p : Plan)
    (hb : Built c done) (hn : p.Name ∉ done.map Plan.Name) :
    SetPlan c p = some (appendPlan c p) ∧ Built (appendPlan c p) (done ++ [p]) := by
  obtain ⟨hnd, hkeys, hbuck, hents⟩ := hb
  refine ⟨?_, mapSet_nodup _ _ _ hnd, ?_, ?_, ?_⟩
  · simp [SetPlan, hkeys p.Name hn]
  · intro n hnot
    simp only [List.map_append, List.map_cons, List.map_nil, List.mem_append,
      List.mem_singleton, not_or] at hnot
    simp only [appendPlan]
    rw [mapGet_mapSet_ne _ _ _ _ hnot.2]
    exact hkeys n hnot.1
  · intro h
    by_cases hh : h = p.Height
    · subst hh
      simp [bucket, appendPlan, mapGet_mapSet_self, List.filter_append]
      exact hbuck p.Height
    · have hne : ¬ p.Height = h := fun e => hh e.symm
      simp only [bucket, appendPlan, mapGet_mapSet_ne _ _ _ _ hh, List.filter_append]
      have := hbuck h
      simp only [bucket] at this
      rw [this]
      simp [List.filter_cons, hne]
  · intro e he
    simp only [appendPlan] at he
    rcases mem_mapSet _ _ _ _ he with h1 | h1
    · exact hents e h1
    · rw [h1]
      simp

theorem Built.run (ps : List Plan) (c : UpgradeConfig) (done : List Plan)
    (hb : Built c done) (hn : ((done ++ ps).map Plan.Name).Nodup) :
    ∃ c', SetPlans c ps = some c' ∧ Built c' (done ++ ps) := by
  induction ps generalizing c done with
  | nil => exact ⟨c, rfl, by simpa using hb⟩
  | cons p ps ih =>
    have hp : p.Name ∉ done.map Plan.Name := by
      intro hmem
      rw [List.map_append, List.nodup_append] at hn
      exact hn.2.2 hmem (by simp)
    obtain ⟨hs, hb'⟩ := Built.step c done p hb hp
    have hn' : (((done ++ [p]) ++ ps).map Plan.Name).Nodup := by
      simpa using hn
    obtain ⟨c', hrun, hbuilt⟩ := ih (appendPlan c p) (done ++ [p]) hb' hn'
    refine ⟨c', ?_, by simpa using hbuilt⟩
    simp [SetPlans, hs, hrun]

theorem Built.init : Built NewUpgradeConfig [] := by
  refine ⟨by simp [NewUpgradeConfig], ?_, ?_, ?_⟩
  · intro n _; rfl
  · intro h; rfl
  · intro e he; simp [NewUpgradeConfig] at he

/-! ## Where the code departs from the claims -/

/-- C1 (the code departs from the claim): after `SetPlan` of `b` at height 9
and `Clear(5)` the registry holds no record at height 0 and a record at height
9, the only one above 0, yet `GetPlan(0)` returns the empty bucket left at
height 5 instead of the records at height 9, in whatever order the loop visits
the buckets. -/
theorem GetPlan_stops_at_empty_bucket :
    runCalls NewUpgradeConfig clearedBelowCalls = some clearedBelow ∧
    Reachable clearedBelow ∧
    bucket clearedBelow 0 = [] ∧
    bucket clearedBelow 9 = [⟨"b", 9, ""⟩] ∧
    (∀ e ∈ clearedBelow.elements, ∀ r ∈ e.2, 0 < r.Height → 9 ≤ r.Height) ∧
    GetPlan clearedBelow 0 = [] ∧
    (∀ els, clearedBelow.elements.Perm els →
      GetPlan { clearedBelow with elements := els } 0 = []) :=
  ⟨by decide, reachable_of_runCalls clearedBelowCalls _ (by decide) (by decide),
   by decide, by decide, by decide, by decide,
   fun els hp =>
    (GetPlan_perm clearedBelow { clearedBelow with elements := els } 0 hp (by decide)).symm.trans
      (by decide)⟩

/-- The search loop of `GetPlan` starts from `recentHeight = math.MaxInt64` and
compares strictly, so a bucket at that height is never found. -/
theorem GetPlan_misses_max_height :
    runCalls NewUpgradeConfig [.setPlan ⟨"a", maxInt64, ""⟩] = some atMaxHeight ∧
    Reachable atMaxHeight ∧
    bucket atMaxHeight maxInt64 = [⟨"a", maxInt64, ""⟩] ∧
    GetPlan atMaxHeight 0 = [] :=
  ⟨by decide,
   reachable_of_runCalls [.setPlan ⟨"a", maxInt64, ""⟩] _ (by decide) (by decide),
   by decide, by decide⟩

/-- C3 (the code departs from the claim): on the reachable registry `shifted`,
which holds `b` at height 1, `SetPlan` of `b` at height 3 follows the stale
index entry of `b`, removes the record `c` from the bucket at height 1 and
leaves one record named `b` there. -/
theorem SetPlan_move_removes_wrong_record :
    runCalls NewUpgradeConfig shiftedCalls = some shifted ∧
    Reachable shifted ∧
    (⟨"b", 1, ""⟩ : Plan) ∈ bucket shifted 1 ∧
    SetPlan shifted ⟨"b", 3, ""⟩ = some shiftedMoved ∧
    countName "b" (bucket shiftedMoved 1) = 1 ∧
    countName "b" (bucket shiftedMoved 3) = 1 ∧
    (⟨"c", 1, ""⟩ : Plan) ∈ bucket shifted 1 ∧
    (⟨"c", 1, ""⟩ : Plan) ∉ bucket shiftedMoved 1 :=
  ⟨by decide, reachable_of_runCalls shiftedCalls _ (by decide) (by decide),
   by decide, by decide, by decide, by decide, by decide, by decide⟩

/-- C4 (the code departs from the claim): on the reachable registry `shifted`,
two `SetPlan` calls in a row with the same plan named `b` at height 1 leave two
records named `b` in the bucket at height 1, and the record `c` is gone. -/
theorem SetPlan_twice_duplicates :
    Reachable shifted ∧
    (SetPlan shifted ⟨"b", 1, "v2"⟩).bind (fun c => SetPlan c ⟨"b", 1, "v2"⟩) =
      some { keys := [("a", ⟨0, 2⟩), ("b", ⟨1, 1⟩), ("c", ⟨2, 1⟩)],
             elements := [(1, [⟨"b", 1, ""⟩, ⟨"b", 1, "v2"⟩]), (2, [⟨"a", 2, ""⟩])] } ∧
    countName "b" [⟨"b", 1, ""⟩, ⟨"b", 1, "v2"⟩] = 2 :=
  ⟨reachable_of_runCalls shiftedCalls _ (by decide) (by decide), by decide, by decide⟩

/-- C5 (the code departs from the claim): after `SetPlan` of `a` and `b` at
height 1 and of `a` at height 2, the index entry of `b` still says slot 1 of
the bucket at height 1, which now has the single slot 0: the entry dangles and
the registry is not consistent. -/
theorem index_dangles_after_move :
    runCalls NewUpgradeConfig danglingCalls = some dangling ∧
    Reachable dangling ∧
    mapGet dangling.keys "b" = some ⟨1, 1⟩ ∧
    (bucket dangling 1).length = 1 ∧
    ¬ Consistent dangling :=
  ⟨by decide, reachable_of_runCalls danglingCalls _ (by decide) (by decide),
   by decide, by decide, by decide⟩

/-- What `Clear(h)` does achieve on a registry whose records sit in the buckets
of their heights: the bucket at `h` is empty, `GetPlan(h)` returns no record of
height `h`, and the other buckets are untouched. -/
theorem Clear_frame (c : UpgradeConfig) (h : Int) (hm : HeightsMatch c) :
    bucket (Clear c h) h = [] ∧
    (∀ r ∈ GetPlan (Clear c h) h, r.Height ≠ h) ∧
    (∀ h', h' ≠ h → mapGet (Clear c h).elements h' = mapGet c.elements h') := by
  have hb : bucket (Clear c h) h = [] := by
    simp [bucket, Clear, mapGet_mapSet_self]
  refine ⟨hb, ?_, ?_⟩
  · intro r hr
    rw [GetPlan_of_bucket_nil _ _ hb] at hr
    rcases getPlan_loop_spec h (Clear c h).elements [] maxInt64 with
      ⟨hres, _⟩ | ⟨e, he, hres, hlt, _, _⟩
    · rw [hres] at hr
      simp at hr
    · rw [hres] at hr
      have := Clear_heightsMatch c h hm e he r hr
      omega
  · intro h' hne
    exact mapGet_mapSet_ne _ _ _ _ hne

/-- C6 (the code departs from the claim): on the reachable registry
`shiftedMoved` the index entry of `c` refers to height 1 while the bucket at
height 1 holds only `b`; `Clear(1)` deletes the entry of `b` and leaves the
entry of `c`, which still refers to height 1. -/
theorem Clear_leaves_stale_entry :
    runCalls NewUpgradeConfig (shiftedCalls ++ [.setPlan ⟨"b", 3, ""⟩]) = some shiftedMoved ∧
    Reachable shiftedMoved ∧
    Clear shiftedMoved 1 =
      { keys := [("a", ⟨0, 2⟩), ("c", ⟨2, 1⟩)],
        elements := [(1, []), (2, [⟨"a", 2, ""⟩]), (3, [⟨"b", 3, ""⟩])] } ∧
    mapGet (Clear shiftedMoved 1).keys "c" = some ⟨2, 1⟩ :=
  ⟨by decide,
   reachable_of_runCalls (shiftedCalls ++ [.setPlan ⟨"b", 3, ""⟩]) _ (by decide) (by decide),
   by decide, by decide⟩

/-! ## Properties that hold of the code -/

/-- C2: when the bucket at the queried height holds at least one record,
`GetPlan` returns exactly that bucket, in its stored order. -/
theorem GetPlan_exact_height (c : UpgradeConfig) (h : Int) (hb : bucket c h ≠ []) :
    GetPlan c h = bucket c h :=
  GetPlan_of_bucket_ne_nil c h hb

theorem GetPlan_exact_height_witness :
    bucket { keys := [("a", ⟨0, 7⟩), ("b", ⟨1, 7⟩), ("c", ⟨0, 9⟩)],
             elements := [(9, [⟨"c", 9, ""⟩]), (7, [⟨"a", 7, "x"⟩, ⟨"b", 7, "y"⟩])] } 7 ≠ [] ∧
    GetPlan { keys := [("a", ⟨0, 7⟩), ("b", ⟨1, 7⟩), ("c", ⟨0, 9⟩)],
              elements := [(9, [⟨"c", 9, ""⟩]), (7, [⟨"a", 7, "x"⟩, ⟨"b", 7, "y"⟩])] } 7 =
      [⟨"a", 7, "x"⟩, ⟨"b", 7, "y"⟩] :=
  ⟨by decide, GetPlan_exact_height _ 7 (by decide)⟩

/-- C7: on a registry with a consistent name index that holds, in slot `i` of
the bucket at `p.Height`, a record with the name and the height of `p`,
`SetPlan(p)` completes and writes `p` into that slot only: the bucket keeps
its length and its other slots, the other buckets and the name index are
unchanged. -/
theorem SetPlan_same_height_in_place (c : UpgradeConfig) (p r : Plan) (i : Nat)
    (hc : Consistent c) (hslot : (bucket c p.Height)[i]? = some r)
    (hname : r.Name = p.Name) (hheight : r.Height = p.Height) :
    ∃ c', SetPlan c p = some c' ∧
      c'.keys = c.keys ∧
      bucket c' p.Height = (bucket c p.Height).set i p ∧
      (bucket c' p.Height).length = (bucket c p.Height).length ∧
      (bucket c' p.Height)[i]? = some p ∧
      (∀ j, j ≠ i → (bucket c' p.Height)[j]? = (bucket c p.Height)[j]?) ∧
      (∀ h, h ≠ p.Height → mapGet c'.elements h = mapGet c.elements h) ∧
      c'.elements.map Prod.fst = c.elements.map Prod.fst := by
  obtain ⟨hlt, hget⟩ := List.getElem?_eq_some.mp hslot
  have hmem : (p.Height, bucket c p.Height) ∈ c.elements := by
    unfold bucket at hlt ⊢
    cases hg : mapGet c.elements p.Height with
    | none => simp [hg] at hlt
    | some b => exact mem_of_mapGet _ _ _ hg
  have hkey : mapGet c.keys p.Name = some { index := i, height := p.Height } := by
    have := hc.2 _ hmem i hlt
    simp only at this
    rw [hget, hname] at this
    exact this
  refine ⟨{ c with elements := mapSet c.elements p.Height ((bucket c p.Height).set i p) },
    ?_, rfl, ?_, ?_, ?_, ?_, ?_, ?_⟩
  · simp [SetPlan, hkey, hslot, hheight]
  · simp [bucket, mapGet_mapSet_self]
  · simp [bucket, mapGet_mapSet_self]
  · simp only [bucket, mapGet_mapSet_self, Option.getD_some]
    rw [List.getElem?_set_self]
    simpa [bucket] using hlt
  · intro j hj
    simp only [bucket, mapGet_mapSet_self, Option.getD_some]
    rw [List.getElem?_set_ne (fun h => hj h.symm)]
  · intro h hh
    exact mapGet_mapSet_ne _ _ _ _ hh
  · simp only [mapSet_keys]
    rw [if_pos]
    exact List.mem_map_of_mem Prod.fst hmem

theorem SetPlan_same_height_in_place_witness :
    Consistent { keys := [("a", ⟨0, 7⟩), ("b", ⟨1, 7⟩), ("c", ⟨0, 9⟩)],
                 elements := [(9, [⟨"c", 9, ""⟩]), (7, [⟨"a", 7, "x"⟩, ⟨"b", 7, "y"⟩])] } ∧
    SetPlan { keys := [("a", ⟨0, 7⟩), ("b", ⟨1, 7⟩), ("c", ⟨0, 9⟩)],
              elements := [(9, [⟨"c", 9, ""⟩]), (7, [⟨"a", 7, "x"⟩, ⟨"b", 7, "y"⟩])] }
        ⟨"b", 7, "z"⟩ =
      some { keys := [("a", ⟨0, 7⟩), ("b", ⟨1, 7⟩), ("c", ⟨0, 9⟩)],
             elements := [(9, [⟨"c", 9, ""⟩]), (7, [⟨"a", 7, "x"⟩, ⟨"b", 7, "z"⟩])] } ∧
    ∃ c', SetPlan { keys := [("a", ⟨0, 7⟩), ("b", ⟨1, 7⟩), ("c", ⟨0, 9⟩)],
                    elements := [(9, [⟨"c", 9, ""⟩]), (7, [⟨"a", 7, "x"⟩, ⟨"b", 7, "y"⟩])] }
        ⟨"b", 7, "z"⟩ = some c' ∧ c'.keys = [("a", ⟨0, 7⟩), ("b", ⟨1, 7⟩), ("c", ⟨0, 9⟩)] :=
  ⟨by decide, by decide,
   (SetPlan_same_height_in_place
      { keys := [("a", ⟨0, 7⟩), ("b", ⟨1, 7⟩), ("c", ⟨0, 9⟩)],
        elements := [(9, [⟨"c", 9, ""⟩]), (7, [⟨"a", 7, "x"⟩, ⟨"b", 7, "y"⟩])] }
      ⟨"b", 7, "z"⟩ ⟨"b", 7, "y"⟩ 1 (by decide) (by decide) rfl rfl).imp
    (fun _ hc' => ⟨hc'.1, hc'.2.1⟩)⟩

/-- C8: on a reachable registry, after a `SetPlan(p)` that completes,
`GetPlan(p.Height)` returns a list that contains `p`. -/
theorem SetPlan_then_GetPlan (c c' : UpgradeConfig) (p : Plan) (hr : Reachable c)
    (hs : SetPlan c p = some c') : p ∈ GetPlan c' p.Height := by
  have hm := hr.heightsMatch
  have key : p ∈ bucket c' p.Height := by
    unfold SetPlan at hs
    cases hk : mapGet c.keys p.Name with
    | none =>
      simp only [hk, Option.some.injEq] at hs
      subst hs
      simp [bucket, appendPlan, mapGet_mapSet_self]
    | some k =>
      simp only [hk] at hs
      cases hslot : (bucket c k.height)[k.index]? with
      | none => simp [hslot] at hs
      | some slot =>
        simp only [hslot] at hs
        have hsh : slot.Height = k.height :=
          mem_bucket_height c k.height slot hm (List.getElem?_mem hslot)
        by_cases heq : slot.Height = p.Height
        · simp only [heq, if_true, Option.some.injEq] at hs
          subst hs
          have hkh : k.height = p.Height := by rw [← hsh, heq]
          have hlt : k.index < (bucket c k.height).length := by
            rcases List.getElem?_eq_some.mp hslot with ⟨hlt, _⟩
            exact hlt
          simp only [bucket, ← hkh, mapGet_mapSet_self, Option.getD_some]
          exact List.mem_iff_getElem?.mpr ⟨k.index, by
            rw [List.getElem?_set_self]
            simpa [bucket] using hlt⟩
        · simp only [heq, if_false, Option.some.injEq] at hs
          subst hs
          simp [bucket, appendPlan, mapGet_mapSet_self]
  have hne : bucket c' p.Height ≠ [] := List.ne_nil_of_mem key
  rw [GetPlan_of_bucket_ne_nil c' p.Height hne]
  exact key

theorem SetPlan_then_GetPlan_witness :
    Reachable NewUpgradeConfig ∧
    SetPlan NewUpgradeConfig ⟨"a", 4, "x"⟩ =
      some { keys := [("a", ⟨0, 4⟩)], elements := [(4, [⟨"a", 4, "x"⟩])] } ∧
    (⟨"a", 4, "x"⟩ : Plan) ∈
      GetPlan { keys := [("a", ⟨0, 4⟩)], elements := [(4, [⟨"a", 4, "x"⟩])] } 4 :=
  ⟨Reachable.init, by decide,
    SetPlan_then_GetPlan NewUpgradeConfig _ ⟨"a", 4, "x"⟩ Reachable.init (by decide)⟩

/-- C9: for a registry built from `NewUpgradeConfig()` by `SetPlan` calls with
pairwise distinct names, all at heights `h+5` or `h+9` with at least one at
each and `h+9` within `int64`, the calls complete and `GetPlan(h)` returns
exactly the records at `h+5`, in call order. -/
theorem GetPlan_nearest_of_two (h : Int) (ps : List Plan)
    (hmax : h + 9 ≤ maxInt64)
    (hnames : (ps.map Plan.Name).Nodup)
    (hheights : ∀ p ∈ ps, p.Height = h + 5 ∨ p.Height = h + 9)
    (h5 : ∃ p ∈ ps, p.Height = h + 5) (h9 : ∃ p ∈ ps, p.Height = h + 9) :
    ∃ c, SetPlans NewUpgradeConfig ps = some c ∧
      GetPlan c h = bucket c (h + 5) ∧
      bucket c (h + 5) = ps.filter (fun p => p.Height = h + 5) ∧
      bucket c (h + 9) = ps.filter (fun p => p.Height = h + 9) ∧
      bucket c (h + 9) ≠ [] ∧ GetPlan c h ≠ [] := by
  obtain ⟨c, hrun, hnd, _, hbuck, hents⟩ :=
    Built.run ps NewUpgradeConfig [] Built.init (by simpa using hnames)
  simp only [List.nil_append] at hbuck
  have hb5 : bucket c (h + 5) ≠ [] := by
    obtain ⟨p, hp, hph⟩ := h5
    rw [hbuck (h + 5)]
    exact List.ne_nil_of_mem (List.mem_filter.mpr ⟨hp, by simp [hph]⟩)
  have hb9 : bucket c (h + 9) ≠ [] := by
    obtain ⟨p, hp, hph⟩ := h9
    rw [hbuck (h + 9)]
    exact List.ne_nil_of_mem (List.mem_filter.mpr ⟨hp, by simp [hph]⟩)
  have hb0 : bucket c h = [] := by
    rw [hbuck h, List.filter_eq_nil_iff]
    intro p hp
    rcases hheights p hp with h1 | h1 <;> simp [h1]
  have hget : GetPlan c h = bucket c (h + 5) := by
    rw [GetPlan_of_bucket_nil c h hb0]
    have hmem5 : (h + 5, bucket c (h + 5)) ∈ c.elements := by
      unfold bucket at hb5 ⊢
      cases hg : mapGet c.elements (h + 5) with
      | none => simp [hg] at hb5
      | some b => exact mem_of_mapGet _ _ _ hg
    rcases getPlan_loop_spec h c.elements [] maxInt64 with
      ⟨_, hall⟩ | ⟨e, he, hres, hlt, _, hmin⟩
    · exfalso
      apply hall _ hmem5
      constructor <;> simp only <;> omega
    · rw [hres]
      have hle : e.1 ≤ h + 5 := hmin _ hmem5 (by simp only; omega)
      have he2 : e.2 = bucket c e.1 := (bucket_of_mem c e hnd he).symm
      obtain ⟨r, hr⟩ := List.exists_mem_of_ne_nil _ (hents e he)
      rw [he2, hbuck e.1] at hr
      obtain ⟨hrps, hrh⟩ := List.mem_filter.mp hr
      simp only [decide_eq_true_eq] at hrh
      have he1 : e.1 = h + 5 := by
        rcases hheights r hrps with h1 | h1 <;> omega
      simp only [he2, he1]
  exact ⟨c, hrun, hget, hbuck (h + 5), hbuck (h + 9), hb9, by rw [hget]; exact hb5⟩

theorem GetPlan_nearest_of_two_witness :
    (10 : Int) + 9 ≤ maxInt64 ∧
    ∃ c, SetPlans NewUpgradeConfig
        [⟨"a", 19, "late"⟩, ⟨"b", 15, "x"⟩, ⟨"c", 19, ""⟩, ⟨"d", 15, "y"⟩] = some c ∧
      GetPlan c 10 = bucket c (10 + 5) ∧
      bucket c (10 + 5) =
        [⟨"a", 19, "late"⟩, ⟨"b", 15, "x"⟩, ⟨"c", 19, ""⟩, ⟨"d", 15, "y"⟩].filter
          (fun p => p.Height = 10 + 5) ∧
      bucket c (10 + 9) =
        [⟨"a", 19, "late"⟩, ⟨"b", 15, "x"⟩, ⟨"c", 19, ""⟩, ⟨"d", 15, "y"⟩].filter
          (fun p => p.Height = 10 + 9) ∧
      bucket c (10 + 9) ≠ [] ∧ GetPlan c 10 ≠ [] :=
  ⟨by decide,
   GetPlan_nearest_of_two 10
    [⟨"a", 19, "late"⟩, ⟨"b", 15, "x"⟩, ⟨"c", 19, ""⟩, ⟨"d", 15, "y"⟩]
    (by decide) (by decide) (by decide) (by decide) (by decide)⟩

/-- C10: on a reachable registry every record returned by `GetPlan(h)` has a
height of at least `h`; when every stored record is at a height strictly below
`h`, the result is empty. -/
theorem GetPlan_heights_ge (c : UpgradeConfig) (h : Int) (hr : Reachable c) :
    (∀ r ∈ GetPlan c h, h ≤ r.Height) ∧
    ((∀ e ∈ c.elements, ∀ r ∈ e.2, r.Height < h) → GetPlan c h = []) := by
  have hm := hr.heightsMatch
  rcases GetPlan_cases c h with hnil | ⟨e, he, hres, hle⟩
  · rw [hnil]
    exact ⟨by simp, fun _ => rfl⟩
  · rw [hres]
    refine ⟨?_, ?_⟩
    · intro r hrm
      rw [hm e he r hrm]
      exact hle
    · intro hall
      cases hb : e.2 with
      | nil => rfl
      | cons r rs =>
        have hrm : r ∈ e.2 := by rw [hb]; exact List.mem_cons_self _ _
        have h1 := hall e he r hrm
        have h2 := hm e he r hrm
        omega

theorem GetPlan_heights_ge_witness :
    Reachable { keys := [("a", ⟨0, 3⟩)], elements := [(3, [⟨"a", 3, ""⟩])] } ∧
    (∀ r ∈ GetPlan { keys := [("a", ⟨0, 3⟩)], elements := [(3, [⟨"a", 3, ""⟩])] } 2,
        (2 : Int) ≤ r.Height) ∧
    (∀ e ∈ ({ keys := [("a", ⟨0, 3⟩)], elements := [(3, [⟨"a", 3, ""⟩])] } :
          UpgradeConfig).elements, ∀ r ∈ e.2, r.Height < 8) ∧
    GetPlan { keys := [("a", ⟨0, 3⟩)], elements := [(3, [⟨"a", 3, ""⟩])] } 8 = [] :=
  ⟨Reachable.setPlan ⟨"a", 3, ""⟩ Reachable.init (by decide) (by decide),
   (GetPlan_heights_ge _ 2
    (Reachable.setPlan ⟨"a", 3, ""⟩ Reachable.init (by decide) (by decide))).1,
   by decide,
   (GetPlan_heights_ge _ 8
    (Reachable.setPlan ⟨"a", 3, ""⟩ Reachable.init (by decide) (by decide))).2 (by decide)⟩

/-! ## Safety and invariants of the registry -/

/-- C17 (the code departs from the claim): on the reachable registry
`dangling` the index entry of `b` says slot 1 of the bucket at height 1, which
has one slot only, so the lookup `elements[key.height][key.index]` made by
`SetPlan` for the known name `b` is out of range and the call fails, whatever
the height of the new plan. -/
theorem SetPlan_index_out_of_range :
    runCalls NewUpgradeConfig danglingCalls = some dangling ∧
    Reachable dangling ∧
    mapGet dangling.keys "b" = some ⟨1, 1⟩ ∧
    (bucket dangling 1)[1]? = none ∧
    SetPlan dangling ⟨"b", 5, ""⟩ = none ∧
    SetPlan dangling ⟨"b", 1, "again"⟩ = none ∧
    runCalls NewUpgradeConfig (danglingCalls ++ [.setPlan ⟨"b", 5, ""⟩]) = none :=
  ⟨by decide, reachable_of_runCalls danglingCalls _ (by decide) (by decide),
   by decide, by decide, by decide, by decide, by decide⟩

/-- C18: in every registry reachable from `NewUpgradeConfig()` by completed
`SetPlan` and `Clear` calls, each record stored in the bucket of a height `h`
has `Height = h`. -/
theorem records_at_own_height (c : UpgradeConfig) (hr : Reachable c) :
    (∀ e ∈ c.elements, ∀ r ∈ e.2, r.Height = e.1) ∧
    (∀ h, ∀ r ∈ bucket c h, r.Height = h) :=
  ⟨hr.heightsMatch, fun h r hmem => mem_bucket_height c h r hr.heightsMatch hmem⟩

theorem records_at_own_height_witness :
    Reachable shiftedMoved ∧
    (∀ e ∈ shiftedMoved.elements, ∀ r ∈ e.2, r.Height = e.1) ∧
    (∀ h, ∀ r ∈ bucket shiftedMoved h, r.Height = h) :=
  ⟨reachable_of_runCalls (shiftedCalls ++ [.setPlan ⟨"b", 3, ""⟩]) _ (by decide) (by decide),
   records_at_own_height shiftedMoved
    (reachable_of_runCalls (shiftedCalls ++ [.setPlan ⟨"b", 3, ""⟩]) _ (by decide)
      (by decide))⟩

/-- C19: for every registry (a map holds each height once) and every height,
`GetPlan` returns the same result for every order in which the loop visits the
buckets.  `GetPlan` only reads the registry: it is a function of the registry
and the height and yields nothing but the returned list. -/
theorem GetPlan_order_independent (c : UpgradeConfig) (h : Int)
    (els : List (Int × List Plan))
    (hnd : (c.elements.map Prod.fst).Nodup) (hp : c.elements.Perm els) :
    GetPlan { c with elements := els } h = GetPlan c h :=
  (GetPlan_perm c { c with elements := els } h hp hnd).symm

theorem GetPlan_order_independent_witness :
    (shiftedMoved.elements.map Prod.fst).Nodup ∧
    shiftedMoved.elements.Perm
      [(3, [⟨"b", 3, ""⟩]), (1, [⟨"b", 1, ""⟩]), (2, [⟨"a", 2, ""⟩])] ∧
    GetPlan { shiftedMoved with
        elements := [(3, [⟨"b", 3, ""⟩]), (1, [⟨"b", 1, ""⟩]), (2, [⟨"a", 2, ""⟩])] } 0 =
      GetPlan shiftedMoved 0 ∧
    GetPlan shiftedMoved 0 = [⟨"b", 1, ""⟩] :=
  ⟨by decide, by decide,
   GetPlan_order_independent shiftedMoved 0
    [(3, [⟨"b", 3, ""⟩]), (1, [⟨"b", 1, ""⟩]), (2, [⟨"a", 2, ""⟩])] (by decide) (by decide),
   by decide⟩

/-! ## Upgrade state manager -/

theorem foldl_lastCompletedStep_some (l : List CompletedUpgrade) (b : CompletedUpgrade) :
    ∃ r, l.foldl lastCompletedStep (some b) = some r ∧ r ∈ b :: l ∧
      ∀ e ∈ b :: l, e.height ≤ r.height := by
  induction l generalizing b with
  | nil => exact ⟨b, rfl, by simp, by simp⟩
  | cons x l ih =>
    simp only [List.foldl_cons, lastCompletedStep]
    by_cases hle : b.height ≤ x.height
    · simp only [hle, if_true]
      obtain ⟨r, hr, hmem, hmax⟩ := ih x
      refine ⟨r, hr, List.mem_cons_of_mem _ hmem, ?_⟩
      intro e he
      rcases List.mem_cons.mp he with h1 | h1
      · rw [h1]
        exact le_trans hle (hmax x (List.mem_cons_self _ _))
      · exact hmax e h1
    · simp only [hle, if_false]
      obtain ⟨r, hr, hmem, hmax⟩ := ih b
      refine ⟨r, hr, ?_, ?_⟩
      · rcases List.mem_cons.mp hmem with h1 | h1
        · rw [h1]; exact List.mem_cons_self _ _
        · exact List.mem_cons_of_mem _ (List.mem_cons_of_mem _ h1)
      · intro e he
        rcases List.mem_cons.mp he with h1 | h1
        · rw [h1]; exact hmax b (List.mem_cons_self _ _)
        · rcases List.mem_cons.mp h1 with h2 | h2
          · rw [h2]
            have := hmax b (List.mem_cons_self _ _)
            omega
          · exact hmax e (List.mem_cons_of_mem _ h2)

/-- On a non-empty log the scan returns an entry of the log of maximum height. -/
theorem getLastCompletedUpgrade_spec (k : Keeper) (hne : k.completed ≠ []) :
    ∃ r ∈ k.completed, getLastCompletedUpgrade k = (r.name, r.height) ∧
      ∀ e ∈ k.completed, e.height ≤ r.height := by
  cases hc : k.completed with
  | nil => exact absurd hc hne
  | cons b l =>
    obtain ⟨r, hr, hmem, hmax⟩ := foldl_lastCompletedStep_some l b
    refine ⟨r, hmem, ?_, hmax⟩
    simp only [getLastCompletedUpgrade, hc, List.foldl_cons, lastCompletedStep, hr]

theorem applyUpgrade_records_name (reg : Handlers) (k k' : Keeper) (ctxHeight : Int)
    (plan : Plan) (h : applyUpgrade reg k ctxHeight plan = .applied k') :
    k'.completed = k.completed ++ [{ name := plan.Name, height := ctxHeight }] ∧
    k'.pending = none := by
  unfold applyUpgrade at h
  split at h
  · cases h
  · split at h
    · cases h
    · cases h
    · split at h
      · cases h
      · split at h
        · cases h
        · simp only [ApplyOutcome.applied.injEq] at h
          subst h
          exact ⟨rfl, rfl⟩

/-- The model agrees with the cases of `TestScheduleUpgrade`, run in a context
at height 10: a valid plan is accepted, also over another pending plan; an
empty name, a past height and an applied name are refused. -/
theorem scheduleUpgrade_test_cases :
    scheduleUpgrade freshKeeper 10 ⟨"all-good", 123450000, "some text here"⟩ =
      ({ freshKeeper with pending := some ⟨"all-good", 123450000, "some text here"⟩ }, none) ∧
    scheduleUpgrade { freshKeeper with pending := some ⟨"alt-good", 543210000, "new text here"⟩ }
        10 ⟨"all-good", 123450000, "some text here"⟩ =
      ({ freshKeeper with pending := some ⟨"all-good", 123450000, "some text here"⟩ }, none) ∧
    (scheduleUpgrade freshKeeper 10 ⟨"", 123450000, ""⟩).2 ≠ none ∧
    (scheduleUpgrade freshKeeper 10 ⟨"all-good", 1, "some text here"⟩).2 ≠ none ∧
    (scheduleUpgrade appliedKeeper 10 ⟨"all-good", 123450000, "some text here"⟩).2 ≠ none :=
  ⟨by decide, by decide, by decide, by decide, by decide⟩

/-- The model agrees with `TestLastCompletedUpgrade`: the default on a fresh
keeper, then `test0` at height 10, then `test1` at height 15. -/
theorem getLastCompletedUpgrade_test_cases :
    getLastCompletedUpgrade freshKeeper = ("EnablePublicDelegationUpgrade", 2) ∧
    applyUpgrade (testHandlers ["test0", "test1"]) freshKeeper 10 ⟨"test0", 10, ""⟩ =
      .applied { freshKeeper with completed := [{ name := "test0", height := 10 }] } ∧
    getLastCompletedUpgrade { freshKeeper with completed := [{ name := "test0", height := 10 }] } =
      ("test0", 10) ∧
    applyUpgrade (testHandlers ["test0", "test1"])
        { freshKeeper with completed := [{ name := "test0", height := 10 }] } 15
        ⟨"test1", 15, ""⟩ =
      .applied { freshKeeper with
        completed := [{ name := "test0", height := 10 }, { name := "test1", height := 15 }] } ∧
    getLastCompletedUpgrade { freshKeeper with
        completed := [{ name := "test0", height := 10 }, { name := "test1", height := 15 }] } =
      ("test1", 15) :=
  ⟨by decide, by decide, by decide, by decide, by decide⟩

theorem scheduleUpgrade_accepts (k k' : Keeper) (ctxHeight : Int) (plan : Plan)
    (h : scheduleUpgrade k ctxHeight plan = (k', none)) :
    k' = { k with pending := some plan } ∧ plan.Name ≠ "" ∧ 0 < plan.Height ∧
    ctxHeight < plan.Height ∧ plan.Name ∉ k.completed.map CompletedUpgrade.name := by
  unfold scheduleUpgrade at h
  split at h
  · simp at h
  · split at h
    · simp at h
    · split at h
      · simp at h
      · rename_i h1 h2 h3
        simp only [Prod.mk.injEq, and_true] at h
        refine ⟨h.symm, fun h0 => h1 (Or.inl h0), ?_, ?_, h2⟩
        · by_contra hc
          exact h1 (Or.inr (by omega))
        · omega

/-- Along the plan state machine every pending or completed name is non-empty:
only a plan that passed `scheduleUpgrade` is ever applied. -/
theorem Lifecycle.names_nonempty {reg : Handlers} {k : Keeper} (hl : Lifecycle reg k) :
    (∀ p, k.pending = some p → p.Name ≠ "") ∧ (∀ e ∈ k.completed, e.name ≠ "") := by
  induction hl with
  | fresh => exact ⟨by simp [freshKeeper], by simp [freshKeeper]⟩
  | scheduled ctxHeight plan _ hs ih =>
    obtain ⟨hk, hname, _, _, _⟩ := scheduleUpgrade_accepts _ _ ctxHeight plan hs
    subst hk
    refine ⟨?_, ih.2⟩
    intro p hp
    simp only [Option.some.injEq] at hp
    rw [← hp]
    exact hname
  | applied plan _ hpend happ ih =>
    obtain ⟨hc, hp⟩ := applyUpgrade_records_name _ _ _ _ plan happ
    refine ⟨?_, ?_⟩
    · intro p hp'
      rw [hp] at hp'
      cases hp'
    · intro e he
      rw [hc] at he
      rcases List.mem_append.mp he with h1 | h1
      · exact ih.2 e h1
      · simp only [List.mem_singleton] at h1
        rw [h1]
        exact ih.1 plan hpend

/-- C11: on a non-empty completed-upgrade log `getLastCompletedUpgrade` returns
the name and height of an entry of the log whose height is the greatest of
all; the height returned is the same for every order of the log, and so is the
name when no two entries share a height. -/
theorem getLastCompletedUpgrade_greatest_height (k : Keeper) (hne : k.completed ≠ []) :
    (∃ r ∈ k.completed, getLastCompletedUpgrade k = (r.name, r.height) ∧
      ∀ e ∈ k.completed, e.height ≤ r.height) ∧
    (∀ k' : Keeper, k'.completed.Perm k.completed →
      (getLastCompletedUpgrade k').2 = (getLastCompletedUpgrade k).2 ∧
      ((∀ e1 ∈ k.completed, ∀ e2 ∈ k.completed, e1.height = e2.height → e1 = e2) →
        getLastCompletedUpgrade k' = getLastCompletedUpgrade k)) := by
  obtain ⟨r, hr, hres, hmax⟩ := getLastCompletedUpgrade_spec k hne
  refine ⟨⟨r, hr, hres, hmax⟩, ?_⟩
  intro k' hp
  have hne' : k'.completed ≠ [] := by
    intro h0
    rw [h0] at hp
    exact hne (List.perm_nil.mp hp.symm)
  obtain ⟨r', hr', hres', hmax'⟩ := getLastCompletedUpgrade_spec k' hne'
  have h1 : r'.height ≤ r.height := hmax r' (hp.subset hr')
  have h2 : r.height ≤ r'.height := hmax' r (hp.symm.subset hr)
  have hh : r'.height = r.height := le_antisymm h1 h2
  refine ⟨by rw [hres, hres']; exact hh, ?_⟩
  intro huniq
  have : r' = r := huniq r' (hp.subset hr') r hr hh
  rw [hres, hres', this]

theorem getLastCompletedUpgrade_greatest_height_witness :
    applyUpgrade (testHandlers ["test-v0.9", "test-v0.10"]) freshKeeper 10
        ⟨"test-v0.9", 10, ""⟩ =
      .applied { pending := none, completed := [{ name := "test-v0.9", height := 10 }],
                 versionMap := [] } ∧
    applyUpgrade (testHandlers ["test-v0.9", "test-v0.10"])
        { pending := none, completed := [{ name := "test-v0.9", height := 10 }],
          versionMap := [] } 15 ⟨"test-v0.10", 15, ""⟩ = .applied orderingKeeper ∧
    orderingKeeper.completed ≠ [] ∧
    getLastCompletedUpgrade orderingKeeper = ("test-v0.10", 15) ∧
    "test-v0.10".data < "test-v0.9".data ∧
    (∀ k' : Keeper, k'.completed.Perm orderingKeeper.completed →
      getLastCompletedUpgrade k' = getLastCompletedUpgrade orderingKeeper) :=
  ⟨by decide, by decide, by decide, by decide, by decide,
   fun k' hp =>
    ((getLastCompletedUpgrade_greatest_height orderingKeeper (by decide)).2 k' hp).2
      (by decide)⟩

/-- C12: on an empty completed-upgrade log `getLastCompletedUpgrade` returns the
fixed default, the constant `EnablePublicDelegationUpgrade` at height 2, not an
empty name. -/
theorem getLastCompletedUpgrade_empty_log (k : Keeper) (hempty : k.completed = []) :
    getLastCompletedUpgrade k = (EnablePublicDelegationUpgrade, 2) ∧
    getLastCompletedUpgrade k = ("EnablePublicDelegationUpgrade", 2) ∧
    (getLastCompletedUpgrade k).1 ≠ "" := by
  have h : getLastCompletedUpgrade k = (EnablePublicDelegationUpgrade, 2) := by
    simp [getLastCompletedUpgrade, hempty]
  refine ⟨h, h, ?_⟩
  rw [h]
  decide

theorem getLastCompletedUpgrade_empty_log_witness :
    freshKeeper.completed = [] ∧
    getLastCompletedUpgrade freshKeeper = ("EnablePublicDelegationUpgrade", 2) :=
  ⟨rfl, (getLastCompletedUpgrade_empty_log freshKeeper rfl).2.1⟩

/-- C13, as stated, fails: a plan with an empty name and a height that is not
above the context height is refused with InvalidPlan, not PastDueDate; so is a
plan of non-positive height; a plan whose name is in the completed log is
refused with AlreadyApplied, also at a past height. -/
theorem scheduleUpgrade_pastDue_counterexample :
    ((⟨"", 1, ""⟩ : Plan).Height ≤ 10 ∧
      scheduleUpgrade freshKeeper 10 ⟨"", 1, ""⟩ = (freshKeeper, some .InvalidPlan) ∧
      scheduleUpgrade freshKeeper 10 ⟨"", 1, ""⟩ ≠ (freshKeeper, some .PastDueDate)) ∧
    ((⟨"all-good", 0, ""⟩ : Plan).Height ≤ 10 ∧
      scheduleUpgrade freshKeeper 10 ⟨"all-good", 0, ""⟩ = (freshKeeper, some .InvalidPlan)) ∧
    ((⟨"all-good", 5, ""⟩ : Plan).Height ≤ 10 ∧
      scheduleUpgrade appliedKeeper 10 ⟨"all-good", 5, ""⟩ =
        (appliedKeeper, some .AlreadyApplied)) :=
  ⟨⟨by decide, by decide, by decide⟩, ⟨by decide, by decide⟩, ⟨by decide, by decide⟩⟩

/-- C13, amended: `scheduleUpgrade` fails with InvalidPlan whenever the name is
empty, whatever the height; it fails with PastDueDate whenever the height is
not above the context height and the plan has a non-empty name, a positive
height and a name that is not in the completed log; every failure leaves the
keeper, and so the pending plan slot, as it was. -/
theorem scheduleUpgrade_validation (k : Keeper) (ctxHeight : Int) (plan : Plan) :
    (plan.Name = "" → scheduleUpgrade k ctxHeight plan = (k, some .InvalidPlan)) ∧
    (plan.Name ≠ "" → 0 < plan.Height →
      plan.Name ∉ k.completed.map CompletedUpgrade.name → plan.Height ≤ ctxHeight →
      scheduleUpgrade k ctxHeight plan = (k, some .PastDueDate)) ∧
    (∀ err, (scheduleUpgrade k ctxHeight plan).2 = some err →
      (scheduleUpgrade k ctxHeight plan).1 = k ∧
      (scheduleUpgrade k ctxHeight plan).1.pending = k.pending) := by
  refine ⟨?_, ?_, ?_⟩
  · intro hname
    simp [scheduleUpgrade, hname]
  · intro hname hpos hnot hpast
    have h1 : ¬ (plan.Name = "" ∨ plan.Height ≤ 0) := by
      rintro (h | h)
      · exact hname h
      · omega
    simp only [scheduleUpgrade, h1, if_false, hnot, hpast, if_true]
  · intro err herr
    unfold scheduleUpgrade at herr ⊢
    split
    · exact ⟨rfl, rfl⟩
    · split
      · exact ⟨rfl, rfl⟩
      · split
        · exact ⟨rfl, rfl⟩
        · rename_i h1 h2 h3
          simp [h1, h2, h3] at herr

theorem scheduleUpgrade_validation_witness :
    scheduleUpgrade { freshKeeper with pending := some ⟨"alt-good", 543210000, ""⟩ } 10
        ⟨"", 123450000, ""⟩ =
      ({ freshKeeper with pending := some ⟨"alt-good", 543210000, ""⟩ }, some .InvalidPlan) ∧
    scheduleUpgrade { freshKeeper with pending := some ⟨"alt-good", 543210000, ""⟩ } 10
        ⟨"all-good", 1, "some text here"⟩ =
      ({ freshKeeper with pending := some ⟨"alt-good", 543210000, ""⟩ }, some .PastDueDate) :=
  ⟨(scheduleUpgrade_validation _ 10 ⟨"", 123450000, ""⟩).1 rfl,
   (scheduleUpgrade_validation _ 10 ⟨"all-good", 1, "some text here"⟩).2.1
      (by decide) (by decide) (by decide) (by decide)⟩

/-- C14: when the name of a plan is in the completed-upgrade log,
`scheduleUpgrade` of a plan with that name, otherwise valid (non-empty name,
positive height), fails with AlreadyApplied at every context height and every
plan height, also one that differs from the height of the log entry; the
keeper is left as it was. -/
theorem scheduleUpgrade_already_applied (k : Keeper) (ctxHeight : Int) (plan : Plan)
    (hdone : plan.Name ∈ k.completed.map CompletedUpgrade.name)
    (hname : plan.Name ≠ "") (hpos : 0 < plan.Height) :
    scheduleUpgrade k ctxHeight plan = (k, some .AlreadyApplied) := by
  have h1 : ¬ (plan.Name = "" ∨ plan.Height ≤ 0) := by
    rintro (h | h)
    · exact hname h
    · omega
  simp only [scheduleUpgrade, h1, if_false, hdone, if_true]

theorem scheduleUpgrade_already_applied_witness :
    applyUpgrade (testHandlers ["all-good"]) freshKeeper 10
        ⟨"all-good", 123450000, "some text here"⟩ = .applied appliedKeeper ∧
    scheduleUpgrade appliedKeeper 10 ⟨"all-good", 123450000, "some text here"⟩ =
      (appliedKeeper, some .AlreadyApplied) ∧
    scheduleUpgrade appliedKeeper 10 ⟨"all-good", 777, ""⟩ =
      (appliedKeeper, some .AlreadyApplied) :=
  ⟨by decide,
   scheduleUpgrade_already_applied appliedKeeper 10 ⟨"all-good", 123450000, "some text here"⟩
    (by decide) (by decide) (by decide),
   scheduleUpgrade_already_applied appliedKeeper 10 ⟨"all-good", 777, ""⟩
    (by decide) (by decide) (by decide)⟩

end Upgrade

/-! # newSplitAndApply -/

namespace Distribution

theorem wrapInt_of_inRange (x : Int) (hlo : -9223372036854775808 ≤ x)
    (hhi : x ≤ 9223372036854775807) : wrapInt x = x := by
  unfold wrapInt
  omega

section Chunks

variable {α : Type}

theorem chunksAux_flatten (n : Nat) (hn : 0 < n) (f : Nat) (l : List α)
    (hf : l.length ≤ f) : (chunksAux n f l).flatten = l := by
  induction f generalizing l with
  | zero =>
    have : l = [] := List.length_eq_zero.mp (Nat.le_zero.mp hf)
    subst this
    rfl
  | succ f ih =>
    cases l with
    | nil => rfl
    | cons a l =>
      simp only [chunksAux, List.flatten_cons]
      rw [ih ((a :: l).drop n)]
      · exact List.take_append_drop n (a :: l)
      · simp only [List.length_drop, List.length_cons] at hf ⊢
        omega

theorem chunksAux_shape (n : Nat) (hn : 0 < n) (f : Nat) (l : List α)
    (hf : l.length ≤ f) :
    (∀ c ∈ chunksAux n f l, c ≠ [] ∧ c.length ≤ n) ∧
    (∀ c ∈ (chunksAux n f l).dropLast, c.length = n) ∧
    (chunksAux n f l).length = (l.length + n - 1) / n := by
  induction f generalizing l with
  | zero =>
    have : l = [] := List.length_eq_zero.mp (Nat.le_zero.mp hf)
    subst this
    refine ⟨by simp [chunksAux], by simp [chunksAux], ?_⟩
    simp only [chunksAux, List.length_nil, Nat.zero_add]
    exact (Nat.div_eq_of_lt (by omega)).symm
  | succ f ih =>
    cases l with
    | nil =>
      refine ⟨by simp [chunksAux], by simp [chunksAux], ?_⟩
      simp only [chunksAux, List.length_nil, Nat.zero_add]
      exact (Nat.div_eq_of_lt (by omega)).symm
    | cons a l =>
      have hlen : ((a :: l).drop n).length ≤ f := by
        simp only [List.length_drop, List.length_cons] at hf ⊢
        omega
      obtain ⟨h1, h2, h3⟩ := ih ((a :: l).drop n) hlen
      simp only [chunksAux]
      refine ⟨?_, ?_, ?_⟩
      · intro c hc
        rcases List.mem_cons.mp hc with hc1 | hc1
        · subst hc1
          constructor
          · intro h0
            have := congrArg List.length h0
            simp only [List.length_take, List.length_cons, List.length_nil] at this
            omega
          · simp only [List.length_take]
            omega
        · exact h1 c hc1
      · intro c hc
        cases hrest : chunksAux n f ((a :: l).drop n) with
        | nil => simp [hrest] at hc
        | cons x xs =>
          rw [hrest, List.dropLast_cons₂] at hc
          rcases List.mem_cons.mp hc with hc1 | hc1
          · subst hc1
            have hpos : 0 < (chunksAux n f ((a :: l).drop n)).length := by
              rw [hrest]; simp
            rw [h3] at hpos
            have hdl : 0 < ((a :: l).drop n).length := by
              by_contra h0
              have h00 : ((a :: l).drop n).length = 0 := by omega
              rw [h00, Nat.zero_add, Nat.div_eq_of_lt (by omega)] at hpos
              exact absurd hpos (by omega)
            simp only [List.length_drop] at hdl
            simp only [List.length_take]
            omega
          · apply h2
            rw [hrest]
            exact hc1
      · simp only [List.length_cons, h3, List.length_drop]
        by_cases hge : n ≤ l.length + 1
        · have e1 : l.length + 1 + n - 1 = (l.length + 1 - n + n - 1) + n := by omega
          rw [e1, Nat.add_div_right _ hn]
        · have e0 : l.length + 1 - n = 0 := by omega
          rw [e0, Nat.zero_add, Nat.div_eq_of_lt (by omega)]
          have e1 : l.length + 1 + n - 1 = l.length + n := by omega
          rw [e1]
          have : (l.length + n) / n = 1 := by
            apply Nat.div_eq_of_lt_le <;> omega
          omega

end Chunks

section Loop

variable {α σ ε : Type}

theorem chunksAux_nil (n f : Nat) : chunksAux n f ([] : List α) = [] := by
  cases f <;> rfl

theorem sliceOf_chunk (msgs : List α) (i n : Nat) (hi : i < msgs.length) :
    sliceOf msgs (i : Int)
        (if ((i : Int) + (n : Int)) > (msgs.length : Int) then (msgs.length : Int)
          else (i : Int) + (n : Int)) =
      some ((msgs.drop i).take n) := by
  unfold sliceOf
  by_cases hgt : ((i : Int) + (n : Int)) > (msgs.length : Int)
  · simp only [hgt, if_true]
    have hc : (0 : Int) ≤ (i : Int) ∧ (i : Int) ≤ (msgs.length : Int) ∧
        (msgs.length : Int) ≤ (msgs.length : Int) := by omega
    simp only [hc, and_self, if_true, Int.toNat_ofNat, Option.some.injEq]
    have e : ((msgs.length : Int) - (i : Int)).toNat = msgs.length - i := by omega
    rw [e, List.take_of_length_le (by simp), List.take_of_length_le (by simp; omega)]
  · simp only [hgt, if_false]
    have hc : (0 : Int) ≤ (i : Int) ∧ (i : Int) ≤ (i : Int) + (n : Int) ∧
        (i : Int) + (n : Int) ≤ (msgs.length : Int) := by omega
    simp only [hc, and_self, if_true, Int.toNat_ofNat, Option.some.injEq]
    have e : ((i : Int) + (n : Int) - (i : Int)).toNat = n := by omega
    rw [e]

theorem splitLoop_eq_runChunks (fn : σ → List α → σ × Option ε) (msgs : List α) (n : Nat)
    (hn : 0 < n) (hlen : msgs.length ≤ 4611686018427387904) :
    ∀ (fuel f i : Nat) (s : σ), msgs.length - i < fuel → (msgs.drop i).length ≤ f →
      (i < msgs.length → (i : Int) + (n : Int) ≤ 9223372036854775807) →
      splitLoop fn msgs (n : Int) fuel (i : Int) s =
        some (.returned (runChunks fn s (chunksAux n f (msgs.drop i))).1
          (runChunks fn s (chunksAux n f (msgs.drop i))).2) := by
  intro fuel
  induction fuel with
  | zero => intro f i s h; omega
  | succ fuel ih =>
    intro f i s hfuel hf hbound
    by_cases hi : i < msgs.length
    · have hiI : (i : Int) < (msgs.length : Int) := by omega
      have hw : wrapInt ((i : Int) + (n : Int)) = (i : Int) + (n : Int) :=
        wrapInt_of_inRange _ (by omega) (hbound hi)
      have hdl : (msgs.drop i).length = msgs.length - i := List.length_drop i msgs
      cases hrest : msgs.drop i with
      | nil =>
        rw [hrest] at hdl
        simp only [List.length_nil] at hdl
        omega
      | cons a rest =>
        cases f with
        | zero =>
          rw [hrest] at hf
          simp only [List.length_cons] at hf
          omega
        | succ f =>
          have hslice := sliceOf_chunk msgs i n hi
          rw [hrest] at hslice
          have hnext := ih f (i + n) ((fn s ((a :: rest).take n)).1) (by omega)
            (by simp only [List.length_drop] at hf ⊢; omega)
            (by intro h2; push_cast; omega)
          have hdd : msgs.drop (i + n) = (a :: rest).drop n := by
            rw [← hrest, List.drop_drop]
          rw [hdd] at hnext
          rw [splitLoop, if_pos hiI]
          dsimp only
          rw [hw, hslice, chunksAux, runChunks]
          rcases hcall : fn s ((a :: rest).take n) with ⟨s', _ | err⟩
          · rw [hcall] at hnext
            simp only [hcall] at hnext ⊢
            rw [← hnext]
            push_cast
            rfl
          · simp only [hcall]
    · have hiI : ¬ (i : Int) < (msgs.length : Int) := by omega
      have hnil : msgs.drop i = [] := List.drop_eq_nil_iff.mpr (by omega)
      rw [splitLoop, if_neg hiI, hnil, chunksAux_nil]
      rfl

theorem runChunks_traced (fn : σ → List α → σ × Option ε) (cs : List (List α)) (s : σ)
    (log : List (List α)) :
    runChunks (traced fn) (s, log) cs =
      (((runChunks fn s cs).1, log ++ callsMade fn s cs), (runChunks fn s cs).2) := by
  induction cs generalizing s log with
  | nil => simp [runChunks, callsMade]
  | cons c cs ih =>
    simp only [runChunks, callsMade, traced]
    rcases hcall : fn s c with ⟨s', _ | err⟩
    · simp only
      rw [ih]
      simp
    · simp

theorem callsMade_of_success (fn : σ → List α → σ × Option ε) (cs : List (List α)) (s : σ)
    (hok : (runChunks fn s cs).2 = none) : callsMade fn s cs = cs := by
  induction cs generalizing s with
  | nil => rfl
  | cons c cs ih =>
    simp only [runChunks, callsMade] at hok ⊢
    rcases hcall : fn s c with ⟨s', _ | err⟩
    · rw [hcall] at hok
      simp only at hok ⊢
      rw [ih s' hok]
    · rw [hcall] at hok
      simp at hok

theorem runChunks_of_all_succeed (fn : σ → List α → σ × Option ε) (cs : List (List α))
    (s : σ) (hall : ∀ s' c, (fn s' c).2 = none) : (runChunks fn s cs).2 = none := by
  induction cs generalizing s with
  | nil => rfl
  | cons c cs ih =>
    simp only [runChunks]
    rcases hcall : fn s c with ⟨s', _ | err⟩
    · exact ih s'
    · have := hall s c
      rw [hcall] at this
      simp at this

/-- When `runChunks` ends in an error, the calls made are the chunks up to and
including the first one on which the callback fails; that call yields the
returned error and state, and no later chunk is passed to the callback. -/
theorem runChunks_of_error (fn : σ → List α → σ × Option ε) (cs : List (List α)) (s : σ)
    (err : ε) (herr : (runChunks fn s cs).2 = some err) :
    ∃ pre c post, cs = pre ++ c :: post ∧ callsMade fn s cs = pre ++ [c] ∧
      (runChunks fn s pre).2 = none ∧
      fn (runChunks fn s pre).1 c = ((runChunks fn s cs).1, some err) := by
  induction cs generalizing s with
  | nil => simp [runChunks] at herr
  | cons c cs ih =>
    simp only [runChunks, callsMade] at herr ⊢
    rcases hcall : fn s c with ⟨s', _ | e⟩
    · rw [hcall] at herr
      simp only at herr ⊢
      obtain ⟨pre, c', post, hcs, hcalls, hpre, hfail⟩ := ih s' herr
      refine ⟨c :: pre, c', post, by rw [hcs]; rfl, by rw [hcalls]; rfl, ?_, ?_⟩
      · simp only [runChunks, hcall]
        exact hpre
      · simp only [runChunks, hcall]
        exact hfail
    · rw [hcall] at herr
      simp only [Option.some.injEq] at herr
      subst herr
      exact ⟨[], c, cs, rfl, rfl, rfl, by simp [runChunks, hcall]⟩

end Loop

section Claims

variable {α σ ε : Type}

/-- C15: with `chunkSize = 0`, `newSplitAndApply` calls the callback exactly
once, on the whole message list (also when it is empty), and returns what that
call returns. -/
theorem newSplitAndApply_zero (fn : σ → List α → σ × Option ε) (s : σ) (msgs : List α)
    (fuel : Nat) :
    newSplitAndApply fn s msgs 0 fuel = some (.returned (fn s msgs).1 (fn s msgs).2) ∧
    newSplitAndApply (traced fn) (s, []) msgs 0 fuel =
      some (.returned ((fn s msgs).1, [msgs]) (fn s msgs).2) ∧
    newSplitAndApply (traced fn) (s, []) [] 0 fuel =
      some (.returned ((fn s []).1, [[]]) (fn s []).2) := by
  refine ⟨?_, ?_, ?_⟩ <;> simp [newSplitAndApply, traced]

/-- C16: with `chunkSize = n > 0` (an `int`, on a message list of at most
`2^62` messages) `newSplitAndApply` terminates: every bound above the length
of the list is enough.  It calls the callback on the chunks of the list in
order and stops at the first error, which it returns.  The chunks are
consecutive slices whose concatenation is the list, `ceil(len/n)` of them,
each non-empty and of length `n` except possibly a shorter last one.  When the
callback never fails all chunks are passed and nil is returned; when a call
fails the calls made are the chunks up to that one and no later chunk. -/
theorem newSplitAndApply_chunks (fn : σ → List α → σ × Option ε) (s : σ) (msgs : List α)
    (n fuel : Nat) (hn : 0 < n) (hn64 : (n : Int) ≤ 9223372036854775807)
    (hlen : msgs.length ≤ 4611686018427387904) (hfuel : msgs.length < fuel) :
    newSplitAndApply fn s msgs (n : Int) fuel =
      some (.returned (runChunks fn s (chunksOf n msgs)).1
        (runChunks fn s (chunksOf n msgs)).2) ∧
    newSplitAndApply (traced fn) (s, []) msgs (n : Int) fuel =
      some (.returned ((runChunks fn s (chunksOf n msgs)).1, callsMade fn s (chunksOf n msgs))
        (runChunks fn s (chunksOf n msgs)).2) ∧
    (chunksOf n msgs).flatten = msgs ∧
    (chunksOf n msgs).length = (msgs.length + n - 1) / n ∧
    (∀ c ∈ chunksOf n msgs, c ≠ [] ∧ c.length ≤ n) ∧
    (∀ c ∈ (chunksOf n msgs).dropLast, c.length = n) ∧
    ((∀ s' c, (fn s' c).2 = none) →
      (runChunks fn s (chunksOf n msgs)).2 = none ∧
      callsMade fn s (chunksOf n msgs) = chunksOf n msgs) ∧
    (∀ err, (runChunks fn s (chunksOf n msgs)).2 = some err →
      ∃ pre c post, chunksOf n msgs = pre ++ c :: post ∧
        callsMade fn s (chunksOf n msgs) = pre ++ [c] ∧
        (runChunks fn s pre).2 = none ∧
        fn (runChunks fn s pre).1 c = ((runChunks fn s (chunksOf n msgs)).1, some err)) := by
  have hne : ¬ (n : Int) = 0 := by omega
  have hloop : ∀ {τ : Type} (g : τ → List α → τ × Option ε) (t : τ),
      newSplitAndApply g t msgs (n : Int) fuel =
        some (.returned (runChunks g t (chunksOf n msgs)).1
          (runChunks g t (chunksOf n msgs)).2) := by
    intro τ g t
    have h := splitLoop_eq_runChunks g msgs n hn hlen fuel msgs.length 0 t (by omega)
      (by simp) (by intro _; push_cast; omega)
    simp only [newSplitAndApply, hne, if_false]
    simpa [chunksOf] using h
  obtain ⟨hshape1, hshape2, hshape3⟩ := chunksAux_shape n hn msgs.length msgs (le_refl _)
  refine ⟨hloop fn s, ?_, chunksAux_flatten n hn msgs.length msgs (le_refl _), hshape3,
    hshape1, hshape2, ?_, ?_⟩
  · rw [hloop (traced fn) (s, []), runChunks_traced]
    simp
  · intro hall
    have hok := runChunks_of_all_succeed fn (chunksOf n msgs) s hall
    exact ⟨hok, callsMade_of_success fn _ s hok⟩
  · intro err herr
    exact runChunks_of_error fn _ s err herr

theorem newSplitAndApply_chunks_witness :
    (0 < 2 ∧ ([1, 2, 3, 4, 5] : List Nat).length < 6) ∧
    newSplitAndApply (traced countingFn) (0, []) [1, 2, 3, 4, 5] 2 6 =
      some (.returned (5, [[1, 2], [3, 4], [5]]) none) ∧
    newSplitAndApply (traced failingFn) (0, []) [1, 2, 3, 4, 5] 2 6 =
      some (.returned (4, [[1, 2], [3, 4]]) (some "rejected")) ∧
    chunksOf 2 [1, 2, 3, 4, 5] = [[1, 2], [3, 4], [5]] :=
  ⟨by decide,
   (newSplitAndApply_chunks countingFn 0 [1, 2, 3, 4, 5] 2 6 (by decide) (by decide)
      (by decide) (by decide)).2.1,
   (newSplitAndApply_chunks failingFn 0 [1, 2, 3, 4, 5] 2 6 (by decide) (by decide)
      (by decide) (by decide)).2.1,
   by decide⟩

end Claims

end Distribution
